import Mathlib

/-!
Transitive closure of a finite binary relation (`warshall.c`).

Shallow embedding of `src/warshall.c`.

* The two matrices `m` and `w` are the two flat blocks `m[0]`, `w[0]` obtained from
  `malloc (n * n * sizeof (int))`; the row pointers are `m[i] = m[0] + n * i`, so the cell
  `m[i][j]` is the flat cell number `n * i + j` of the block.
* A block is a `List Int`; a load or store outside the block is undefined behaviour in C and is
  the fault `Fault.outOfBounds` here.
* `malloc` does not initialise: the first contents of a block are a parameter.
* `row_string` is modelled by the characters it holds in front of the terminating NUL.
-/

namespace Warshall

/-- The constant `#define MAXSIZE 50`. -/
def MAXSIZE : Nat := 50

/-- What stops a run of the C program without a defined result. -/
inductive Fault where
  | outOfBounds
  | nullPointer
  deriving DecidableEq, Repr

/-- One block of `int`s returned by `malloc`. -/
abbrev Store := List Int

/-- Contents of a fresh block of `count` ints: whatever the heap held (`heap`). -/
def malloc (heap : Nat → Int) (count : Nat) : Store :=
  (List.range count).map heap

/-- Flat position of `p[i][j]` when `p[i] = p[0] + n * i`. -/
def cell (n i j : Nat) : Nat := n * i + j

/-- Read of the flat cell `a` of a block. -/
def load (s : Store) (a : Nat) : Except Fault Int :=
  match s[a]? with
  | some v => .ok v
  | none => .error .outOfBounds

/-- Write of the flat cell `a` of a block. -/
def store (s : Store) (a : Nat) (v : Int) : Except Fault Store :=
  if a < s.length then .ok (s.set a v) else .error .outOfBounds

/-- The loop `for (i = 0; i < n; ++i) body`. -/
def forLoop {σ : Type} (n : Nat) (body : Nat → σ → Except Fault σ) (s : σ) : Except Fault σ :=
  match n with
  | 0 => .ok s
  | k + 1 => forLoop k body s >>= body k

/-- The two matrices of `main`: `m` is the relation, `w` its closure. -/
structure Mem where
  m : Store
  w : Store
  deriving DecidableEq, Repr

/-- The assignment `w[i][j] = m[i][j];` -/
def copyCell (n i j : Nat) (st : Mem) : Except Fault Mem := do
  let v ← load st.m (cell n i j)
  let w ← store st.w (cell n i j) v
  pure { st with w := w }

/-- The loop under `// copy the matrix`. -/
def copyLoop (n : Nat) (st : Mem) : Except Fault Mem :=
  forLoop n (fun i => forLoop n (fun j => copyCell n i j)) st

/-- The assignment `w[i][j] = w[i][j] || (w[i][k] && w[k][j]);` with the short-circuit
order of C. -/
def warshallCell (n k i j : Nat) (st : Mem) : Except Fault Mem := do
  let a ← load st.w (cell n i j)
  let v ←
    if a ≠ 0 then pure (1 : Int)
    else do
      let b ← load st.w (cell n i k)
      if b = 0 then pure (0 : Int)
      else do
        let c ← load st.w (cell n k j)
        pure (if c ≠ 0 then (1 : Int) else 0)
  let w ← store st.w (cell n i j) v
  pure { st with w := w }

/-- The iteration of the Warshall loop for one `k`. -/
def warshallIter (n k : Nat) (st : Mem) : Except Fault Mem :=
  forLoop n (fun i => forLoop n (fun j => warshallCell n k i j)) st

/-- The triple loop under `// find the transitive closure of m`. -/
def warshallLoop (n : Nat) (st : Mem) : Except Fault Mem :=
  forLoop n (fun k => warshallIter n k) st

/-- Copy of `m` into `w` followed by the triple loop. -/
def closure (n : Nat) (st : Mem) : Except Fault Mem :=
  copyLoop n st >>= warshallLoop n

/-- The character `row_string[i]`: the characters held, then the terminating NUL. -/
def charAt (row_string : List Char) (i : Nat) : Char :=
  row_string.getD i (Char.ofNat 0)

/-- The length `strlen (row_string)`. -/
def strlen (row_string : List Char) : Nat :=
  (row_string.takeWhile (fun c => c ≠ Char.ofNat 0)).length

/-- The loop under `// parse the string`, from position `i` with `fuel = MAXSIZE - i`. -/
def parseFrom (n row : Nat) (row_string : List Char) : Nat → Nat → Store → Except Fault Store
  | 0, _, m => .ok m
  | fuel + 1, i, m =>
    if charAt row_string i = '\n' ∨ charAt row_string i = Char.ofNat 0 then .ok m
    else
      (store m (cell n row i) (if charAt row_string i = '1' then 1 else 0)) >>=
        parseFrom n row row_string fuel (i + 1)

/-- The loop `for (i = 0; i < MAXSIZE; ++i)` that stores `m[row][i]`, for one row. -/
def parseRow (n row : Nat) (row_string : List Char) (m : Store) : Except Fault Store :=
  parseFrom n row row_string MAXSIZE 0 m

/-- Number of characters of the line in front of its terminator (newline or NUL). -/
def lineLen (row_string : List Char) : Nat :=
  (row_string.takeWhile (fun c => c ≠ '\n' ∧ c ≠ Char.ofNat 0)).length

/-- The reading loop of `fgets`: at most `k` more characters, stop behind a newline. -/
def fgetsLoop : Nat → List Char → List Char → List Char × List Char
  | 0, acc, inp => (acc.reverse, inp)
  | _ + 1, acc, [] => (acc.reverse, [])
  | k + 1, acc, c :: rest =>
    if c = '\n' then ((c :: acc).reverse, rest) else fgetsLoop k (c :: acc) rest

/-- The call `fgets (row_string, size, stdin)`: new contents of the buffer and the rest of the input.
At end of input with nothing read the buffer keeps its contents. -/
def fgets (row_string : List Char) (size : Nat) (stdin : List Char) : List Char × List Char :=
  match stdin with
  | [] => (row_string, [])
  | _ :: _ => fgetsLoop (size - 1) [] stdin

/-- Text of one row of `print_matrix`: `printf (" %d ", p[i][j])` for each `j`. -/
def printRow (p : Store) (size i : Nat) : Nat → String → Except Fault String
  | 0, out => .ok out
  | j + 1, out => do
    let out ← printRow p size i j out
    let v ← load p (cell size i j)
    pure (out ++ " " ++ toString v ++ " ")

/-- The function `print_matrix (p, size)`: the text written. -/
def print_matrix (p : Store) (size : Nat) : Except Fault String :=
  forLoop size (fun i out => do
    let out ← printRow p size i size out
    pure (out ++ "\n")) ""

/-- State of the double loop of `print_set`: the text so far and the variable `first`. -/
structure SetOut where
  out : String
  first : Bool
  deriving DecidableEq, Repr

/-- Body of the double loop of `print_set`. -/
def printPair (p : Store) (size i j : Nat) (s : SetOut) : Except Fault SetOut := do
  let v ← load p (cell size i j)
  if v = 1 then
    pure { out := s.out ++ (if s.first then "" else ", ") ++ "(" ++
                    String.singleton (Char.ofNat (i + 97)) ++ ", " ++
                    String.singleton (Char.ofNat (j + 97)) ++ ")",
           first := false }
  else pure s

/-- The function `print_set (name, p, size)`: the text written. -/
def print_set (name : String) (p : Store) (size : Nat) : Except Fault String :=
  if size > 26 then .ok ""
  else do
    let s ← forLoop size (fun i => forLoop size (fun j => printPair p size i j))
      { out := name ++ " = \x7b ", first := true }
    pure (s.out ++ " \x7d" ++ "\n")

/-- State of the row loop of `main`. -/
structure Input where
  row_string : List Char
  stdin : List Char
  m : Store
  out : String
  deriving DecidableEq

/-- One turn of the `while (1)` loop of `main` for the row `row`. -/
def readRow (n row : Nat) (s : Input) : Except Fault Input := do
  let s :=
    if row > 0 then
      let r := fgets s.row_string MAXSIZE s.stdin
      { s with row_string := r.1, stdin := r.2,
               out := s.out ++ "Enter row " ++ toString (row + 1) ++ ": " }
    else s
  let m ← parseRow n row s.row_string s.m
  pure { s with m := m }

/-- What a run of `main` leaves: the size, both matrices and the text written. -/
structure Run where
  n : Nat
  m : Store
  w : Store
  out : String
  deriving DecidableEq

/-- First part of `main` (up to the end of the `while` loop): the size `n` taken from the
first line, the block `m`, and the row loop. `row_string0` is what the buffer held at the
start and `heapM` what the fresh block held. Returns `n` and the state behind the loop.
With `strlen` 0 the size is `-1`, `malloc` returns `NULL` for the row pointers and the store
`m[0] = ...` goes through it. With the size 0 the blocks have no cell, the row loop and all
later loops make no turn, and the run goes on: the only stores, `m[0] = ...` and
`w[0] = ...`, put one row pointer each into what `malloc (0)` returned. -/
def readMatrix (stdin row_string0 : List Char) (heapM : Nat → Int) :
    Except Fault (Nat × Input) :=
  let out := "We\x27ll build the nxn relation matrix one row at a time. For example,\n" ++
    "entering the first row as 1010 will result in a 4x4 matrix.\n\n" ++ "Enter row 1: "
  let r := fgets row_string0 MAXSIZE stdin
  -- n = strlen (row_string) - 1
  if strlen r.1 = 0 then .error .nullPointer
  else do
    let n := strlen r.1 - 1
    let inp ← forLoop n (readRow n)
      { row_string := r.1, stdin := r.2, m := malloc heapM (n * n), out := out }
    pure (n, inp)

/-- Second part of `main`: the texts, the copy into the fresh block `w` (which held `heapW`)
and the triple loop. -/
def report (n : Nat) (m : Store) (out : String) (heapW : Nat → Int) : Except Fault Run := do
  let out := out ++ "\nCreated a " ++ toString n ++ "x" ++ toString n ++ " matrix.\n"
  let out := out ++ "\nMatrix of the relation R:\n\n"
  let t ← print_matrix m n
  let out := out ++ t ++ "\n"
  let t ← print_set "R" m n
  let out := out ++ t
  let st ← closure n { m := m, w := malloc heapW (n * n) }
  let out := out ++ "\nMatrix of its transitive closure R*:\n\n"
  let t ← print_matrix st.w n
  let out := out ++ t ++ "\n"
  let t ← print_set "R*" st.w n
  pure { n := n, m := st.m, w := st.w, out := out ++ t }

/-- The program `main` on the input `stdin`. -/
def main (stdin row_string0 : List Char) (heapM heapW : Nat → Int) : Except Fault Run := do
  let r ← readMatrix stdin row_string0 heapM
  report r.1 r.2.m r.2.out heapW

/-- Equality of results is decidable. -/
instance exceptDecEq {α : Type} [DecidableEq α] : DecidableEq (Except Fault α) := fun a b =>
  match a, b with
  | .ok x, .ok y =>
    if h : x = y then isTrue (by rw [h]) else isFalse (fun h' => h (by cases h'; rfl))
  | .error x, .error y =>
    if h : x = y then isTrue (by rw [h]) else isFalse (fun h' => h (by cases h'; rfl))
  | .ok _, .error _ => isFalse (fun h => by cases h)
  | .error _, .ok _ => isFalse (fun h => by cases h)

/-! ## Views used by the statements -/

/-- Value of `p[i][j]` in a block laid out with rows of `n` cells. -/
def rd (s : Store) (n i j : Nat) : Int := s.getD (cell n i j) 0

/-- Value of the C expression `a || (b && c)`. -/
def orAnd (a b c : Int) : Int := if a ≠ 0 ∨ (b ≠ 0 ∧ c ≠ 0) then 1 else 0

/-- The block holds an `n x n` matrix whose cells are all `0` or `1`. -/
def IsBoolMatrix (n : Nat) (s : Store) : Prop :=
  s.length = n * n ∧ ∀ i, i < n → ∀ j, j < n → rd s n i j = 0 ∨ rd s n i j = 1

instance (n : Nat) (s : Store) : Decidable (IsBoolMatrix n s) := by
  unfold IsBoolMatrix; infer_instance

/-- The relation of the matrix: `i` is related to `j`. -/
def Rel (n : Nat) (s : Store) (i j : Nat) : Prop := i < n ∧ j < n ∧ rd s n i j ≠ 0

/-- The matrix is transitive on `0..n-1`. -/
def Transitive (n : Nat) (s : Store) : Prop :=
  ∀ i, i < n → ∀ k, k < n → ∀ j, j < n → rd s n i k ≠ 0 → rd s n k j ≠ 0 → rd s n i j ≠ 0

instance (n : Nat) (s : Store) : Decidable (Transitive n s) := by
  unfold Transitive; infer_instance

/-- A path from `i` to `j` of at least one step whose inner nodes are all below `k`. -/
inductive PathLt (E : Nat → Nat → Prop) (k : Nat) : Nat → Nat → Prop where
  | edge {i j : Nat} : E i j → PathLt E k i j
  | cons {i x j : Nat} : E i x → x < k → PathLt E k x j → PathLt E k i j

/-- A walk from `i` to `j` of exactly `p` steps. -/
inductive Walk (E : Nat → Nat → Prop) : Nat → Nat → Nat → Prop where
  | refl (i : Nat) : Walk E 0 i i
  | cons {p i x j : Nat} : E i x → Walk E p x j → Walk E (p + 1) i j

/-- State of the matrix `w` inside the iteration for `k`, in front of the cell `(i, j)`: the
cells in front of it (row-major) are updated from the matrix `st0.w` at the start of the
iteration, the others still hold its values; `m` is as it was. -/
def IterInv (n k : Nat) (st0 : Mem) (i j : Nat) (st : Mem) : Prop :=
  st.m = st0.m ∧ st.w.length = n * n ∧
  ∀ a b, a < n → b < n → rd st.w n a b =
    if a < i ∨ (a = i ∧ b < j) then orAnd (rd st0.w n a b) (rd st0.w n a k) (rd st0.w n k b)
    else rd st0.w n a b

/-! ## Boolean powers of a matrix (header comment: `MR* = M v M^2 v M^3 v ... v M^n`) -/

/-- The `n x n` matrix whose cell is computed by `f` from its flat position. -/
def tabulate (n : Nat) (f : Nat → Int) : Store := (List.range (n * n)).map f

/-- Boolean product: cell `(i, j)` is the OR over `x` of `A[i][x] && B[x][j]`. -/
def boolMul (n : Nat) (A B : Store) : Store :=
  tabulate n (fun a => if ∃ x, x < n ∧ (rd A n (a / n) x ≠ 0 ∧ rd B n x (a % n) ≠ 0) then 1 else 0)

/-- Boolean power `M^p`, with `M^0` the identity matrix. -/
def boolPow (n : Nat) (M : Store) : Nat → Store
  | 0 => tabulate n (fun a => if a / n = a % n then 1 else 0)
  | p + 1 => boolMul n M (boolPow n M p)

/-- Entrywise OR of two matrices. -/
def boolOr (n : Nat) (A B : Store) : Store :=
  tabulate n (fun a => if A.getD a 0 ≠ 0 ∨ B.getD a 0 ≠ 0 then 1 else 0)

/-- The matrix `M v M^2 v ... v M^p`. -/
def orPowers (n : Nat) (M : Store) : Nat → Store
  | 0 => tabulate n (fun _ => 0)
  | p + 1 => boolOr n (orPowers n M p) (boolPow n M (p + 1))

/-- The list `l` holds the nodes behind `i` of a walk from `i` that ends in `j`. -/
def ChainTo (E : Nat → Nat → Prop) : Nat → List Nat → Nat → Prop
  | i, [], j => i = j
  | i, x :: l, j => E i x ∧ ChainTo E x l j

/-- The turns `a, a + 1, ..., a + d - 1` of a `for` loop, started in the state `s`. -/
def forLoopFrom {σ : Type} (a : Nat) (body : Nat → σ → Except Fault σ) :
    Nat → σ → Except Fault σ
  | 0, s => .ok s
  | d + 1, s => forLoopFrom a body d s >>= body (a + d)

/-! ## The set line as the specification words it -/

/-- The `x`-th lowercase letter (`a` for 0). -/
def letter (x : Nat) : Char := "abcdefghijklmnopqrstuvwxyz".toList.getD x ' '

/-- Text of one ordered pair: `(c_i, c_j)`. -/
def pairText (q : Nat × Nat) : String :=
  "(" ++ String.singleton (letter q.1) ++ ", " ++ String.singleton (letter q.2) ++ ")"

/-- The pairs `(i, j)` with `cell[i][j]` true, in row-major order. -/
def truePairs (n : Nat) (p : Store) : List (Nat × Nat) :=
  (List.range n).flatMap (fun i =>
    ((List.range n).filter (fun j => rd p n i j ≠ 0)).map (fun j => (i, j)))

/-- The line `name = { pairs joined by ", " }`. -/
def setLine (name : String) (n : Nat) (p : Store) : String :=
  name ++ " = \x7b " ++ ", ".intercalate ((truePairs n p).map pairText) ++ " \x7d"

/-- The true pairs of row `i` in the columns below `j`. -/
def rowPairs (n : Nat) (p : Store) (i j : Nat) : List (Nat × Nat) :=
  ((List.range j).filter (fun j => rd p n i j ≠ 0)).map (fun j => (i, j))

/-- The true pairs in front of the cell `(i, j)` in row-major order. -/
def pairsBefore (n : Nat) (p : Store) (i j : Nat) : List (Nat × Nat) :=
  (List.range i).flatMap (fun i => rowPairs n p i n) ++ rowPairs n p i j

/-- State of `print_set` in front of the cell `(i, j)`: the text holds the name, the opening
brace and the pairs so far, and `first` is still set when there is none. -/
def SetInv (name : String) (n : Nat) (p : Store) (i j : Nat) (s : SetOut) : Prop :=
  s.out = name ++ " = \x7b " ++ ", ".intercalate ((pairsBefore n p i j).map pairText) ∧
  (s.first = true ↔ pairsBefore n p i j = [])

/-! ## The text of `print_matrix`, cell by cell -/

/-- Text of one 0/1 cell as `printf (" %d ", v)` writes it: a space, the digit, a space. -/
def cellText (v : Int) : String := " " ++ (if v = 0 then "0" else "1") ++ " "

/-- Text of row `i`: its `n` cells in column order. -/
def rowLine (n : Nat) (p : Store) (i : Nat) : String :=
  String.join ((List.range n).map (fun j => cellText (rd p n i j)))

/-- The `n` lines of the matrix, each closed by a newline. -/
def matrixText (n : Nat) (p : Store) : String :=
  String.join ((List.range n).map (fun i => rowLine n p i ++ "\n"))

/-! ## The size and the stores of the row loop, as values -/

/-- The value of `n = strlen (row_string) - 1` behind the first `fgets`, as the `int` it is
(`-1` when the buffer holds the empty string). -/
def firstSize (stdin row_string0 : List Char) : Int :=
  (strlen (fgets row_string0 MAXSIZE stdin).1 : Int) - 1

/-- The column indices `i` of the stores `m[row][i] = ...` that the parse loop performs on
the buffer, in order, from position `i` with `fuel = MAXSIZE - i`. -/
def parseCols (row_string : List Char) : Nat → Nat → List Nat
  | 0, _ => []
  | fuel + 1, i =>
    if charAt row_string i = '\n' ∨ charAt row_string i = Char.ofNat 0 then []
    else i :: parseCols row_string fuel (i + 1)

end Warshall

namespace Warshall

/-! ## Blocks, cells and loops -/

theorem cell_lt {n i j : Nat} (hi : i < n) (hj : j < n) : cell n i j < n * n := by
  unfold cell
  have h : n * i + n ≤ n * n := by
    have := Nat.mul_le_mul_left n (Nat.succ_le_of_lt hi)
    simpa [Nat.mul_succ] using this
  omega

theorem cell_inj {n i j a b : Nat} (hj : j < n) (hb : b < n)
    (h : cell n i j = cell n a b) : i = a ∧ j = b := by
  unfold cell at h
  have hn : 0 < n := by omega
  have h1 : (n * i + j) / n = i := by
    rw [Nat.mul_add_div hn, Nat.div_eq_of_lt hj]; rfl
  have h2 : (n * a + b) / n = a := by
    rw [Nat.mul_add_div hn, Nat.div_eq_of_lt hb]; rfl
  have hia : i = a := by rw [← h1, ← h2, h]
  subst hia
  exact ⟨rfl, by omega⟩

theorem load_ok {s : Store} {a : Nat} (h : a < s.length) : load s a = .ok (s.getD a 0) := by
  simp [load, List.getElem?_eq_getElem h, List.getD_eq_getElem?_getD]

theorem store_ok {s : Store} {a : Nat} (v : Int) (h : a < s.length) :
    store s a v = .ok (s.set a v) := by
  simp [store, h]

theorem rd_set {s : Store} {n i j a b : Nat} (v : Int) (hs : s.length = n * n)
    (hi : i < n) (hj : j < n) (hb : b < n) :
    rd (s.set (cell n i j) v) n a b = if a = i ∧ b = j then v else rd s n a b := by
  unfold rd
  by_cases h : a = i ∧ b = j
  · obtain ⟨rfl, rfl⟩ := h
    have := cell_lt hi hj
    simp [List.getD_eq_getElem?_getD, List.getElem?_set, hs, this]
  · have hne : cell n i j ≠ cell n a b := by
      intro hc
      obtain ⟨h1, h2⟩ := cell_inj hj hb hc
      exact h ⟨h1.symm, h2.symm⟩
    simp [List.getD_eq_getElem?_getD, List.getElem?_set, hne, h]

theorem forLoop_rule {σ : Type} (P : Nat → σ → Prop) (n : Nat)
    (body : Nat → σ → Except Fault σ) (s : σ) (h0 : P 0 s)
    (hstep : ∀ i t, i < n → P i t → ∃ t', body i t = .ok t' ∧ P (i + 1) t') :
    ∃ t, forLoop n body s = .ok t ∧ P n t := by
  induction n with
  | zero => exact ⟨s, rfl, h0⟩
  | succ k ih =>
    obtain ⟨t, ht, hP⟩ := ih (fun i t hi => hstep i t (Nat.lt_succ_of_lt hi))
    obtain ⟨t', ht', hP'⟩ := hstep k t (Nat.lt_succ_self k) hP
    refine ⟨t', ?_, hP'⟩
    simp only [forLoop, ht]
    exact ht'

theorem orAnd_ne_zero (a b c : Int) : orAnd a b c ≠ 0 ↔ a ≠ 0 ∨ (b ≠ 0 ∧ c ≠ 0) := by
  unfold orAnd
  split <;> simp_all

theorem orAnd_bool (a b c : Int) : orAnd a b c = 0 ∨ orAnd a b c = 1 := by
  unfold orAnd
  split <;> simp

theorem orAnd_congr {a b c a' b' c' : Int} (ha : a ≠ 0 ↔ a' ≠ 0) (hb : b ≠ 0 ↔ b' ≠ 0)
    (hc : c ≠ 0 ↔ c' ≠ 0) : orAnd a b c = orAnd a' b' c' := by
  unfold orAnd
  simp only [ha, hb, hc]

theorem warshallCell_ok {n k i j : Nat} {st : Mem} (hw : st.w.length = n * n)
    (hi : i < n) (hj : j < n) (hk : k < n) :
    warshallCell n k i j st = .ok (Mem.mk st.m (st.w.set (cell n i j)
      (orAnd (rd st.w n i j) (rd st.w n i k) (rd st.w n k j)))) := by
  have h1 : cell n i j < st.w.length := hw ▸ cell_lt hi hj
  have h2 : cell n i k < st.w.length := hw ▸ cell_lt hi hk
  have h3 : cell n k j < st.w.length := hw ▸ cell_lt hk hj
  unfold warshallCell orAnd rd
  rw [load_ok h1]
  by_cases ha : (st.w)[cell n i j]?.getD 0 = 0
  · by_cases hb : (st.w)[cell n i k]?.getD 0 = 0
    · simp [ha, hb, load_ok h2, store_ok _ h1, bind, Except.bind, pure, Except.pure]
    · by_cases hc : (st.w)[cell n k j]?.getD 0 = 0 <;>
        simp [ha, hb, hc, load_ok h2, load_ok h3, store_ok _ h1, bind, Except.bind, pure,
          Except.pure]
  · simp [ha, store_ok _ h1, bind, Except.bind, pure, Except.pure]

theorem copyCell_ok {n i j : Nat} {st : Mem} (hm : st.m.length = n * n)
    (hw : st.w.length = n * n) (hi : i < n) (hj : j < n) :
    copyCell n i j st = .ok (Mem.mk st.m (st.w.set (cell n i j) (rd st.m n i j))) := by
  have h1 : cell n i j < st.w.length := hw ▸ cell_lt hi hj
  have h2 : cell n i j < st.m.length := hm ▸ cell_lt hi hj
  simp [copyCell, rd, load_ok h2, store_ok _ h1, bind, Except.bind, pure, Except.pure]

/-! ## One iteration of the outer loop -/

theorem orAnd_col (c : Prop) [Decidable c] (x y : Int) :
    (if c then orAnd x x y else x) ≠ 0 ↔ x ≠ 0 := by
  split
  · rw [orAnd_ne_zero]; tauto
  · rfl

theorem orAnd_row (c : Prop) [Decidable c] (x y : Int) :
    (if c then orAnd x y x else x) ≠ 0 ↔ x ≠ 0 := by
  split
  · rw [orAnd_ne_zero]; tauto
  · rfl

theorem iterInv_step {n k i j : Nat} {st0 st : Mem} (hk : k < n) (hi : i < n) (hj : j < n)
    (h : IterInv n k st0 i j st) :
    ∃ st', warshallCell n k i j st = .ok st' ∧ IterInv n k st0 i (j + 1) st' := by
  obtain ⟨hm, hl, hc⟩ := h
  rw [warshallCell_ok hl hi hj hk]
  refine ⟨_, rfl, hm, by simp [hl], ?_⟩
  intro a b ha hb
  show rd (st.w.set (cell n i j) _) n a b = _
  rw [rd_set _ hl hi hj hb]
  by_cases hab : a = i ∧ b = j
  · obtain ⟨rfl, rfl⟩ := hab
    have e1 : rd st.w n a b = rd st0.w n a b := by
      rw [hc a b ha hb]; simp
    have e2 := hc a k ha hk
    have e3 := hc k b hk hb
    have c2 : rd st.w n a k ≠ 0 ↔ rd st0.w n a k ≠ 0 := by
      rw [e2]; exact orAnd_col _ _ _
    have c3 : rd st.w n k b ≠ 0 ↔ rd st0.w n k b ≠ 0 := by
      rw [e3]; exact orAnd_row _ _ _
    simp only [and_self, if_true, lt_self_iff_false, false_or, true_and, Nat.lt_succ_self]
    exact orAnd_congr (by rw [e1]) c2 c3
  · rw [if_neg hab, hc a b ha hb]
    have hiff : (a < i ∨ (a = i ∧ b < j)) ↔ (a < i ∨ (a = i ∧ b < j + 1)) := by
      constructor
      · rintro (h | ⟨h1, h2⟩)
        · exact Or.inl h
        · exact Or.inr ⟨h1, by omega⟩
      · rintro (h | ⟨h1, h2⟩)
        · exact Or.inl h
        · refine Or.inr ⟨h1, ?_⟩
          have : b ≠ j := fun hbj => hab ⟨h1, hbj⟩
          omega
    simp only [hiff]

theorem iterInv_row {n k i : Nat} {st0 st : Mem} (h : IterInv n k st0 i n st) :
    IterInv n k st0 (i + 1) 0 st := by
  obtain ⟨hm, hl, hc⟩ := h
  refine ⟨hm, hl, ?_⟩
  intro a b ha hb
  rw [hc a b ha hb]
  have hiff : (a < i ∨ (a = i ∧ b < n)) ↔ (a < i + 1 ∨ (a = i + 1 ∧ b < 0)) := by
    constructor
    · rintro (h | ⟨h1, _⟩)
      · exact Or.inl (by omega)
      · exact Or.inl (by omega)
    · rintro (h | ⟨_, h2⟩)
      · by_cases hai : a < i
        · exact Or.inl hai
        · exact Or.inr ⟨by omega, hb⟩
      · omega
  simp only [hiff]

theorem warshallIter_ok {n k : Nat} {st0 : Mem} (hw : st0.w.length = n * n) (hk : k < n) :
    ∃ st, warshallIter n k st0 = .ok st ∧ st.m = st0.m ∧ st.w.length = n * n ∧
      ∀ a b, a < n → b < n →
        rd st.w n a b = orAnd (rd st0.w n a b) (rd st0.w n a k) (rd st0.w n k b) := by
  have h0 : IterInv n k st0 0 0 st0 := by
    refine ⟨rfl, hw, ?_⟩
    intro a b _ _
    simp
  obtain ⟨st, hst, hinv⟩ := forLoop_rule (fun i st => IterInv n k st0 i 0 st) n
    (fun i => forLoop n (fun j => warshallCell n k i j)) st0 h0 (by
      intro i t hi ht
      obtain ⟨t', ht', hinv'⟩ := forLoop_rule (fun j st => IterInv n k st0 i j st) n
        (fun j => warshallCell n k i j) t ht (fun j u hj hu => iterInv_step hk hi hj hu)
      exact ⟨t', ht', iterInv_row hinv'⟩)
  obtain ⟨hm, hl, hc⟩ := hinv
  refine ⟨st, hst, hm, hl, ?_⟩
  intro a b ha hb
  rw [hc a b ha hb, if_pos (Or.inl ha)]

/-! ## Paths -/

theorem PathLt.mono {E : Nat → Nat → Prop} {k k' i j : Nat} (hk : k ≤ k')
    (h : PathLt E k i j) : PathLt E k' i j := by
  induction h with
  | edge he => exact PathLt.edge he
  | cons he hx _ ih => exact PathLt.cons he (Nat.lt_of_lt_of_le hx hk) ih

theorem PathLt.append {E : Nat → Nat → Prop} {k i x j : Nat} (h1 : PathLt E k i x)
    (hx : x < k) (h2 : PathLt E k x j) : PathLt E k i j := by
  induction h1 with
  | edge he => exact PathLt.cons he hx h2
  | cons he hy _ ih => exact PathLt.cons he hy (ih hx h2)

theorem pathLt_zero {E : Nat → Nat → Prop} {i j : Nat} : PathLt E 0 i j ↔ E i j := by
  constructor
  · intro h
    cases h with
    | edge he => exact he
    | cons _ hx _ => exact absurd hx (Nat.not_lt_zero _)
  · exact PathLt.edge

theorem pathLt_succ {E : Nat → Nat → Prop} {k i j : Nat} :
    PathLt E (k + 1) i j ↔ PathLt E k i j ∨ (PathLt E k i k ∧ PathLt E k k j) := by
  constructor
  · intro h
    induction h with
    | edge he => exact Or.inl (PathLt.edge he)
    | @cons i x j he hx _ ih =>
      rcases Nat.lt_succ_iff_lt_or_eq.mp hx with hlt | rfl
      · rcases ih with h1 | ⟨h1, h2⟩
        · exact Or.inl (PathLt.cons he hlt h1)
        · exact Or.inr ⟨PathLt.cons he hlt h1, h2⟩
      · rcases ih with h1 | ⟨_, h2⟩
        · exact Or.inr ⟨PathLt.edge he, h1⟩
        · exact Or.inr ⟨PathLt.edge he, h2⟩
  · rintro (h | ⟨h1, h2⟩)
    · exact h.mono (Nat.le_succ k)
    · exact (h1.mono (Nat.le_succ k)).append (Nat.lt_succ_self k) (h2.mono (Nat.le_succ k))

theorem PathLt.endpoints {n : Nat} {s : Store} {k i j : Nat} (h : PathLt (Rel n s) k i j) :
    i < n ∧ j < n := by
  induction h with
  | edge he => exact ⟨he.1, he.2.1⟩
  | cons he _ _ ih => exact ⟨he.1, ih.2⟩

theorem rel_congr {n : Nat} {s t : Store}
    (h : ∀ a b, a < n → b < n → rd s n a b = rd t n a b) : Rel n s = Rel n t := by
  funext i j
  apply propext
  constructor
  · rintro ⟨hi, hj, hr⟩
    exact ⟨hi, hj, by rwa [← h i j hi hj]⟩
  · rintro ⟨hi, hj, hr⟩
    exact ⟨hi, hj, by rwa [h i j hi hj]⟩

/-! ## The loops of `main` -/

theorem copyLoop_ok {n : Nat} {st0 : Mem} (hm : st0.m.length = n * n)
    (hw : st0.w.length = n * n) :
    ∃ st, copyLoop n st0 = .ok st ∧ st.m = st0.m ∧ st.w.length = n * n ∧
      ∀ a b, a < n → b < n → rd st.w n a b = rd st0.m n a b := by
  obtain ⟨st, hst, h1, h2, h3⟩ := forLoop_rule
    (fun i st => st.m = st0.m ∧ st.w.length = n * n ∧
      ∀ a b, a < n → b < n → a < i → rd st.w n a b = rd st0.m n a b) n
    (fun i => forLoop n (fun j => copyCell n i j)) st0
    ⟨rfl, hw, fun a b _ _ h => absurd h (Nat.not_lt_zero a)⟩ (by
      intro i t hi ht
      obtain ⟨t', ht', g1, g2, g3⟩ := forLoop_rule
        (fun j st => st.m = st0.m ∧ st.w.length = n * n ∧
          ∀ a b, a < n → b < n → (a < i ∨ (a = i ∧ b < j)) → rd st.w n a b = rd st0.m n a b) n
        (fun j => copyCell n i j) t
        ⟨ht.1, ht.2.1, fun a b ha hb h => by
          rcases h with h | ⟨_, h⟩
          · exact ht.2.2 a b ha hb h
          · exact absurd h (Nat.not_lt_zero b)⟩ (by
          intro j u hj ⟨u1, u2, u3⟩
          beta_reduce
          rw [copyCell_ok (u1 ▸ hm) u2 hi hj]
          refine ⟨_, rfl, u1, by simp [u2], ?_⟩
          intro a b ha hb hab
          show rd (u.w.set (cell n i j) _) n a b = _
          rw [rd_set _ u2 hi hj hb]
          by_cases hc : a = i ∧ b = j
          · obtain ⟨rfl, rfl⟩ := hc
            rw [if_pos ⟨rfl, rfl⟩, u1]
          · rw [if_neg hc]
            apply u3 a b ha hb
            rcases hab with h | ⟨h1, h2⟩
            · exact Or.inl h
            · refine Or.inr ⟨h1, ?_⟩
              have : b ≠ j := fun hbj => hc ⟨h1, hbj⟩
              omega)
      refine ⟨t', ht', g1, g2, ?_⟩
      intro a b ha hb hab
      apply g3 a b ha hb
      by_cases hai : a < i
      · exact Or.inl hai
      · exact Or.inr ⟨by omega, hb⟩)
  exact ⟨st, hst, h1, h2, fun a b ha hb => h3 a b ha hb ha⟩

theorem warshallLoop_ok {n : Nat} {st0 : Mem} (hw : st0.w.length = n * n) :
    ∃ st, warshallLoop n st0 = .ok st ∧ st.m = st0.m ∧ st.w.length = n * n ∧
      ∀ a b, a < n → b < n →
        (rd st.w n a b ≠ 0 ↔ PathLt (Rel n st0.w) n a b) ∧
        (rd st.w n a b = 0 ∨ rd st.w n a b = 1) := by
  obtain ⟨st, hst, h1, h2, h3⟩ := forLoop_rule
    (fun k st => st.m = st0.m ∧ st.w.length = n * n ∧
      ∀ a b, a < n → b < n →
        (rd st.w n a b ≠ 0 ↔ PathLt (Rel n st0.w) k a b) ∧
        (0 < k → rd st.w n a b = 0 ∨ rd st.w n a b = 1)) n
    (fun k => warshallIter n k) st0
    ⟨rfl, hw, fun a b ha hb => ⟨by
      rw [pathLt_zero]
      exact ⟨fun h => ⟨ha, hb, h⟩, fun h => h.2.2⟩, fun h => absurd h (Nat.lt_irrefl 0)⟩⟩ (by
      intro k t hk ⟨t1, t2, t3⟩
      obtain ⟨t', ht', g1, g2, g3⟩ := warshallIter_ok t2 hk
      refine ⟨t', ht', g1.trans t1, g2, ?_⟩
      intro a b ha hb
      rw [g3 a b ha hb]
      refine ⟨?_, fun _ => orAnd_bool _ _ _⟩
      rw [orAnd_ne_zero, pathLt_succ, (t3 a b ha hb).1, (t3 a k ha hk).1, (t3 k b hk hb).1])
  exact ⟨st, hst, h1, h2, fun a b ha hb =>
    ⟨(h3 a b ha hb).1, (h3 a b ha hb).2 (Nat.lt_of_le_of_lt (Nat.zero_le a) ha)⟩⟩

/-- What the copy followed by the triple loop computes: it returns, leaves `m` as it was, and
the cell `(a, b)` of `w` is `1` when `m` has a path from `a` to `b` and `0` when not. -/
theorem closure_ok (n : Nat) (st0 : Mem) (hm : st0.m.length = n * n)
    (hw : st0.w.length = n * n) :
    ∃ st, closure n st0 = .ok st ∧ st.m = st0.m ∧ st.w.length = n * n ∧
      ∀ a b, a < n → b < n →
        (rd st.w n a b ≠ 0 ↔ PathLt (Rel n st0.m) n a b) ∧
        (rd st.w n a b = 0 ∨ rd st.w n a b = 1) := by
  obtain ⟨s1, e1, m1, l1, c1⟩ := copyLoop_ok hm hw
  obtain ⟨s2, e2, m2, l2, c2⟩ := warshallLoop_ok l1
  refine ⟨s2, ?_, m2.trans m1, l2, ?_⟩
  · simp only [closure, e1]
    exact e2
  · intro a b ha hb
    rw [← rel_congr c1]
    exact c2 a b ha hb

/-! ## Consequences shared by the statements below -/

theorem malloc_length (heap : Nat → Int) (count : Nat) : (malloc heap count).length = count := by
  simp [malloc]

theorem path_in_transitive {n k : Nat} {M T : Store} (hT : Transitive n T)
    (hsub : ∀ i j, Rel n M i j → rd T n i j ≠ 0) (hk : k ≤ n) {i j : Nat}
    (h : PathLt (Rel n M) k i j) : rd T n i j ≠ 0 := by
  induction h with
  | edge he => exact hsub _ _ he
  | @cons i x j he hx hp ih =>
    exact hT i he.1 x (Nat.lt_of_lt_of_le hx hk) j hp.endpoints.2 (hsub _ _ he) ih

theorem store_ext {n : Nat} {s t : Store} (hs : s.length = n * n) (ht : t.length = n * n)
    (h : ∀ i j, i < n → j < n → rd s n i j = rd t n i j) : s = t := by
  apply List.ext_getElem (hs.trans ht.symm)
  intro a h1 h2
  have hn : 0 < n := by
    rcases Nat.eq_zero_or_pos n with h0 | h0
    · subst h0; simp at hs; rw [hs] at h1; exact absurd h1 (Nat.not_lt_zero _)
    · exact h0
  have hi : a / n < n := by
    rw [Nat.div_lt_iff_lt_mul hn]; rw [hs] at h1; exact h1
  have hj : a % n < n := Nat.mod_lt _ hn
  have hc : cell n (a / n) (a % n) = a := Nat.div_add_mod a n
  have := h (a / n) (a % n) hi hj
  unfold rd at this
  rw [hc] at this
  simpa [List.getD_eq_getElem?_getD, List.getElem?_eq_getElem h1,
    List.getElem?_eq_getElem h2] using this

/-- On a transitive 0/1 matrix the copy and the triple loop give the matrix back. -/
theorem closure_of_transitive (n : Nat) (st0 : Mem) (hm : IsBoolMatrix n st0.m)
    (hw : st0.w.length = n * n) (ht : Transitive n st0.m) :
    ∃ st, closure n st0 = .ok st ∧ st.m = st0.m ∧ st.w = st0.m := by
  obtain ⟨st, hst, hmm, hl, hc⟩ := closure_ok n st0 hm.1 hw
  refine ⟨st, hst, hmm, store_ext hl hm.1 ?_⟩
  intro i j hi hj
  obtain ⟨h1, h2⟩ := hc i j hi hj
  have h3 : rd st.w n i j ≠ 0 ↔ rd st0.m n i j ≠ 0 :=
    h1.trans ⟨path_in_transitive ht (fun _ _ h => h.2.2) (Nat.le_refl n),
      fun h => PathLt.edge ⟨hi, hj, h⟩⟩
  rcases h2 with h2 | h2 <;> rcases hm.2 i hi j hj with h4 | h4 <;> rw [h2, h4] at h3 <;>
    first
      | exact absurd (h3.mpr one_ne_zero) (fun h => h rfl)
      | exact absurd (h3.mp one_ne_zero) (fun h => h rfl)
      | rw [h2, h4]

/-! ## The closure -/

/-- C1: for every size `n` and every `n x n` matrix `M`, the copy of `M` into `w` followed by
the `k, i, j` triple loop returns, and the matrix `w` it leaves is transitive: for all
`i, k, j` in `0..n-1`, if `w[i][k]` and `w[k][j]` are true then `w[i][j]` is true. -/
theorem closure_transitive (n : Nat) (M : Store) (heapW : Nat → Int)
    (hM : IsBoolMatrix n M) :
    ∃ st, closure n ⟨M, malloc heapW (n * n)⟩ = .ok st ∧ Transitive n st.w := by
  obtain ⟨st, hst, _, _, hc⟩ := closure_ok n ⟨M, malloc heapW (n * n)⟩ hM.1
    (malloc_length _ _)
  refine ⟨st, hst, ?_⟩
  intro i hi k hk j hj h1 h2
  rw [(hc i k hi hk).1] at h1
  rw [(hc k j hk hj).1] at h2
  rw [(hc i j hi hj).1]
  exact h1.append hk h2

theorem closure_transitive_witness :
    IsBoolMatrix 2 [0, 1, 1, 0] ∧
    ∃ st, closure 2 ⟨[0, 1, 1, 0], malloc (fun _ => 7) (2 * 2)⟩ = .ok st ∧
      Transitive 2 st.w :=
  ⟨by decide, closure_transitive 2 [0, 1, 1, 0] (fun _ => 7) (by decide)⟩

/-- C2: for every `n x n` 0/1 matrix `M` the closure loop returns and the matrix `w` it leaves
contains the relation: if `M[i][j]` is true then `w[i][j]` is true; and no single assignment
`w[i][j] = w[i][j] || (w[i][k] && w[k][j])` of the loop turns a true cell false. -/
theorem closure_contains_input (n : Nat) (M : Store) (heapW : Nat → Int)
    (hM : IsBoolMatrix n M) :
    (∃ st, closure n ⟨M, malloc heapW (n * n)⟩ = .ok st ∧
      ∀ i j, i < n → j < n → rd M n i j ≠ 0 → rd st.w n i j ≠ 0) ∧
    (∀ k i j, k < n → i < n → j < n → ∀ st st' : Mem, st.w.length = n * n →
      warshallCell n k i j st = .ok st' →
      ∀ a b, a < n → b < n → rd st.w n a b ≠ 0 → rd st'.w n a b ≠ 0) := by
  constructor
  · obtain ⟨st, hst, _, _, hc⟩ := closure_ok n ⟨M, malloc heapW (n * n)⟩ hM.1
      (malloc_length _ _)
    refine ⟨st, hst, ?_⟩
    intro i j hi hj h
    rw [(hc i j hi hj).1]
    exact PathLt.edge ⟨hi, hj, h⟩
  · intro k i j hk hi hj st st' hl hstep a b _ hb h
    rw [warshallCell_ok hl hi hj hk] at hstep
    cases hstep
    show rd (st.w.set (cell n i j) _) n a b ≠ 0
    rw [rd_set _ hl hi hj hb]
    by_cases hab : a = i ∧ b = j
    · obtain ⟨rfl, rfl⟩ := hab
      rw [if_pos ⟨rfl, rfl⟩, orAnd_ne_zero]
      exact Or.inl h
    · rw [if_neg hab]
      exact h

theorem closure_contains_input_witness :
    IsBoolMatrix 2 [0, 1, 1, 0] ∧
    ((∃ st, closure 2 ⟨[0, 1, 1, 0], malloc (fun _ => 7) (2 * 2)⟩ = .ok st ∧
      ∀ i j, i < 2 → j < 2 → rd [0, 1, 1, 0] 2 i j ≠ 0 → rd st.w 2 i j ≠ 0) ∧
    (∀ k i j, k < 2 → i < 2 → j < 2 → ∀ st st' : Mem, st.w.length = 2 * 2 →
      warshallCell 2 k i j st = .ok st' →
      ∀ a b, a < 2 → b < 2 → rd st.w 2 a b ≠ 0 → rd st'.w 2 a b ≠ 0)) :=
  ⟨by decide, closure_contains_input 2 [0, 1, 1, 0] (fun _ => 7) (by decide)⟩

/-- C3: for every `n x n` 0/1 matrix `M` the closure matrix `w` is the smallest transitive
superset of `M`: `w` is a 0/1 matrix, it is transitive, it contains `M` (`w[i][j] >= M[i][j]`
for all `i, j`), and for every transitive `n x n` 0/1 matrix `T` with `T[i][j] >= M[i][j]` for
all `i, j`, also `T[i][j] >= w[i][j]` for all `i, j`. -/
theorem closure_smallest (n : Nat) (M T : Store) (heapW : Nat → Int)
    (hM : IsBoolMatrix n M) (hT : IsBoolMatrix n T) (htr : Transitive n T)
    (hsub : ∀ i, i < n → ∀ j, j < n → rd M n i j ≤ rd T n i j) :
    ∃ st, closure n ⟨M, malloc heapW (n * n)⟩ = .ok st ∧
      IsBoolMatrix n st.w ∧ Transitive n st.w ∧
      (∀ i j, i < n → j < n → rd M n i j ≤ rd st.w n i j) ∧
      ∀ i j, i < n → j < n → rd st.w n i j ≤ rd T n i j := by
  obtain ⟨st, hst, _, hlen, hc⟩ := closure_ok n ⟨M, malloc heapW (n * n)⟩ hM.1
    (malloc_length _ _)
  refine ⟨st, hst, ⟨hlen, fun i hi j hj => (hc i j hi hj).2⟩, ?_, ?_, ?_⟩
  · intro i hi k hk j hj h1 h2
    rw [(hc i k hi hk).1] at h1
    rw [(hc k j hk hj).1] at h2
    rw [(hc i j hi hj).1]
    exact h1.append hk h2
  · intro i j hi hj
    obtain ⟨h1, h2⟩ := hc i j hi hj
    rcases hM.2 i hi j hj with h0 | h0
    · rw [h0]
      rcases h2 with h | h <;> simp [h]
    · have hne : rd st.w n i j ≠ 0 :=
        h1.mpr (PathLt.edge ⟨hi, hj, by rw [h0]; decide⟩)
      rcases h2 with h | h
      · exact absurd h hne
      · rw [h0, h]
  · have hrel : ∀ i j, Rel n M i j → rd T n i j ≠ 0 := by
      rintro i j ⟨hi, hj, h⟩
      have := hsub i hi j hj
      rcases hM.2 i hi j hj with h0 | h1
      · exact absurd h0 h
      · omega
    intro i j hi hj
    obtain ⟨h1, h2⟩ := hc i j hi hj
    rcases h2 with h2 | h2
    · rw [h2]
      rcases hT.2 i hi j hj with h | h <;> simp [h]
    · have hw : rd st.w n i j ≠ 0 := by rw [h2]; decide
      have hTne := path_in_transitive htr hrel (Nat.le_refl n) (h1.mp hw)
      rcases hT.2 i hi j hj with h | h
      · exact absurd h hTne
      · rw [h2, h]

theorem closure_smallest_witness :
    IsBoolMatrix 3 [0, 1, 0, 0, 0, 1, 0, 0, 0] ∧ IsBoolMatrix 3 [1, 1, 1, 0, 1, 1, 0, 0, 1] ∧
    Transitive 3 [1, 1, 1, 0, 1, 1, 0, 0, 1] ∧
    (∀ i, i < 3 → ∀ j, j < 3 →
      rd [0, 1, 0, 0, 0, 1, 0, 0, 0] 3 i j ≤ rd [1, 1, 1, 0, 1, 1, 0, 0, 1] 3 i j) ∧
    ∃ st, closure 3 ⟨[0, 1, 0, 0, 0, 1, 0, 0, 0], malloc (fun _ => 7) (3 * 3)⟩ = .ok st ∧
      IsBoolMatrix 3 st.w ∧ Transitive 3 st.w ∧
      (∀ i j, i < 3 → j < 3 → rd [0, 1, 0, 0, 0, 1, 0, 0, 0] 3 i j ≤ rd st.w 3 i j) ∧
      ∀ i j, i < 3 → j < 3 → rd st.w 3 i j ≤ rd [1, 1, 1, 0, 1, 1, 0, 0, 1] 3 i j :=
  ⟨by decide, by decide, by decide, by decide,
    closure_smallest 3 [0, 1, 0, 0, 0, 1, 0, 0, 0] [1, 1, 1, 0, 1, 1, 0, 0, 1] (fun _ => 7)
      (by decide) (by decide) (by decide) (by decide)⟩

/-- C5: the closure computation is idempotent: for every `n x n` 0/1 matrix `M`, the copy
and triple loop applied to the closure of `M` return a matrix equal cell for cell to the
closure of `M`. -/
theorem closure_idempotent (n : Nat) (M : Store) (heap1 heap2 : Nat → Int)
    (hM : IsBoolMatrix n M) :
    ∃ st1 st2, closure n ⟨M, malloc heap1 (n * n)⟩ = .ok st1 ∧
      closure n ⟨st1.w, malloc heap2 (n * n)⟩ = .ok st2 ∧ st2.w = st1.w ∧
      ∀ i j, i < n → j < n → rd st2.w n i j = rd st1.w n i j := by
  obtain ⟨st1, hst1, _, hl, hc⟩ := closure_ok n ⟨M, malloc heap1 (n * n)⟩ hM.1
    (malloc_length _ _)
  have hb : IsBoolMatrix n st1.w := ⟨hl, fun i hi j hj => (hc i j hi hj).2⟩
  have htr : Transitive n st1.w := by
    intro i hi k hk j hj h1 h2
    rw [(hc i k hi hk).1] at h1
    rw [(hc k j hk hj).1] at h2
    rw [(hc i j hi hj).1]
    exact h1.append hk h2
  obtain ⟨st2, hst2, _, heq⟩ := closure_of_transitive n ⟨st1.w, malloc heap2 (n * n)⟩ hb
    (malloc_length _ _) htr
  exact ⟨st1, st2, hst1, hst2, heq, fun i j _ _ => by rw [heq]⟩

theorem closure_idempotent_witness :
    IsBoolMatrix 3 [0, 1, 0, 0, 0, 1, 0, 0, 0] ∧
    ∃ st1 st2, closure 3 ⟨[0, 1, 0, 0, 0, 1, 0, 0, 0], malloc (fun _ => 7) (3 * 3)⟩ = .ok st1 ∧
      closure 3 ⟨st1.w, malloc (fun _ => 5) (3 * 3)⟩ = .ok st2 ∧ st2.w = st1.w ∧
      ∀ i j, i < 3 → j < 3 → rd st2.w 3 i j = rd st1.w 3 i j :=
  ⟨by decide, closure_idempotent 3 [0, 1, 0, 0, 0, 1, 0, 0, 0] (fun _ => 7) (fun _ => 5)
    (by decide)⟩

theorem copyCell_keeps_m {n i j : Nat} {st st' : Mem} (h : copyCell n i j st = .ok st') :
    st'.m = st.m := by
  unfold copyCell at h
  cases h1 : load st.m (cell n i j) with
  | error e => simp [h1, bind, Except.bind] at h
  | ok v =>
    cases h2 : store st.w (cell n i j) v with
    | error e => simp [h1, h2, bind, Except.bind] at h
    | ok w =>
      simp [h1, h2, bind, Except.bind, pure, Except.pure] at h
      rw [← h]

theorem warshallCell_keeps_m {n k i j : Nat} {st st' : Mem}
    (h : warshallCell n k i j st = .ok st') : st'.m = st.m := by
  unfold warshallCell at h
  simp only [bind, Except.bind, pure, Except.pure] at h
  repeat' split at h
  all_goals first
    | cases h; rfl
    | exact absurd h (by simp)

/-- C6: computing the closure does not change the input matrix: for every size `n` and every
matrix `m`, the copy into `w` and the complete triple loop return with every cell of `m` as
it was, and every single assignment of the two loops leaves `m` as it was (the writes go to
`w` only). -/
theorem closure_keeps_input (n : Nat) (M W : Store) (hM : M.length = n * n)
    (hW : W.length = n * n) :
    (∃ st, closure n ⟨M, W⟩ = .ok st ∧ st.m = M) ∧
    (∀ i j st st', copyCell n i j st = .ok st' → st'.m = st.m) ∧
    (∀ k i j st st', warshallCell n k i j st = .ok st' → st'.m = st.m) := by
  refine ⟨?_, fun i j st st' h => copyCell_keeps_m h, fun k i j st st' h =>
    warshallCell_keeps_m h⟩
  obtain ⟨st, hst, hm, _, _⟩ := closure_ok n ⟨M, W⟩ hM hW
  exact ⟨st, hst, hm⟩

theorem closure_keeps_input_witness :
    [0, 1, 1, 0].length = 2 * 2 ∧ [5, 6, 7, 8].length = 2 * 2 ∧
    ((∃ st, closure 2 ⟨[0, 1, 1, 0], [5, 6, 7, 8]⟩ = .ok st ∧ st.m = [0, 1, 1, 0]) ∧
    (∀ i j st st', copyCell 2 i j st = .ok st' → st'.m = st.m) ∧
    (∀ k i j st st', warshallCell 2 k i j st = .ok st' → st'.m = st.m)) :=
  ⟨by decide, by decide, closure_keeps_input 2 [0, 1, 1, 0] [5, 6, 7, 8] (by decide) (by decide)⟩

/-! ## Walks and boolean powers -/

theorem tabulate_length (n : Nat) (f : Nat → Int) : (tabulate n f).length = n * n := by
  simp [tabulate]

theorem rd_tabulate {n i j : Nat} (f : Nat → Int) (hi : i < n) (hj : j < n) :
    rd (tabulate n f) n i j = f (cell n i j) := by
  have h := cell_lt hi hj
  simp [rd, tabulate, List.getD_eq_getElem?_getD, List.getElem?_map, List.getElem?_range, h]

theorem cell_div {n i j : Nat} (hj : j < n) : cell n i j / n = i := by
  unfold cell
  rw [Nat.mul_add_div (by omega), Nat.div_eq_of_lt hj]; rfl

theorem cell_mod {n i j : Nat} (hj : j < n) : cell n i j % n = j := by
  unfold cell
  rw [Nat.mul_add_mod, Nat.mod_eq_of_lt hj]

theorem boolPow_length (n : Nat) (M : Store) (p : Nat) : (boolPow n M p).length = n * n := by
  cases p <;> simp [boolPow, boolMul, tabulate_length]

theorem rd_boolPow {n : Nat} (M : Store) (p : Nat) {i j : Nat} (hi : i < n) (hj : j < n) :
    rd (boolPow n M p) n i j ≠ 0 ↔ Walk (Rel n M) p i j := by
  induction p generalizing i j with
  | zero =>
    simp only [boolPow]
    rw [rd_tabulate _ hi hj, cell_div hj, cell_mod hj]
    constructor
    · intro h
      by_cases hij : i = j
      · subst hij; exact Walk.refl i
      · simp [hij] at h
    · intro h
      cases h
      simp
  | succ p ih =>
    simp only [boolPow, boolMul]
    rw [rd_tabulate _ hi hj, cell_div hj, cell_mod hj]
    constructor
    · intro h
      by_cases hex : ∃ x, x < n ∧ (rd M n i x ≠ 0 ∧ rd (boolPow n M p) n x j ≠ 0)
      · obtain ⟨x, hx, h1, h2⟩ := hex
        exact Walk.cons ⟨hi, hx, h1⟩ ((ih hx hj).mp h2)
      · rw [if_neg hex] at h
        exact absurd rfl h
    · intro h
      cases h with
      | cons he hw =>
        rw [if_pos ⟨_, he.2.1, he.2.2, (ih he.2.1 hj).mpr hw⟩]
        exact one_ne_zero

theorem orPowers_length (n : Nat) (M : Store) (p : Nat) : (orPowers n M p).length = n * n := by
  cases p <;> simp [orPowers, boolOr, tabulate_length]

theorem rd_orPowers {n : Nat} (M : Store) (p : Nat) {i j : Nat} (hi : i < n) (hj : j < n) :
    (rd (orPowers n M p) n i j ≠ 0 ↔ ∃ q, 1 ≤ q ∧ q ≤ p ∧ Walk (Rel n M) q i j) ∧
    (rd (orPowers n M p) n i j = 0 ∨ rd (orPowers n M p) n i j = 1) := by
  induction p with
  | zero =>
    simp only [orPowers]
    rw [rd_tabulate _ hi hj]
    refine ⟨⟨fun h => absurd rfl h, ?_⟩, Or.inl rfl⟩
    rintro ⟨q, h1, h2, _⟩
    omega
  | succ p ih =>
    simp only [orPowers, boolOr]
    rw [rd_tabulate _ hi hj]
    have e1 : (orPowers n M p).getD (cell n i j) 0 = rd (orPowers n M p) n i j := rfl
    have e2 : (boolPow n M (p + 1)).getD (cell n i j) 0 = rd (boolPow n M (p + 1)) n i j := rfl
    rw [e1, e2]
    constructor
    · constructor
      · intro h
        by_cases hc : rd (orPowers n M p) n i j ≠ 0 ∨ rd (boolPow n M (p + 1)) n i j ≠ 0
        · rcases hc with hc | hc
          · obtain ⟨q, h1, h2, h3⟩ := ih.1.mp hc
            exact ⟨q, h1, Nat.le_succ_of_le h2, h3⟩
          · exact ⟨p + 1, Nat.succ_le_succ (Nat.zero_le p), Nat.le_refl _,
              (rd_boolPow M (p + 1) hi hj).mp hc⟩
        · rw [if_neg hc] at h
          exact absurd rfl h
      · rintro ⟨q, h1, h2, h3⟩
        have hc : rd (orPowers n M p) n i j ≠ 0 ∨ rd (boolPow n M (p + 1)) n i j ≠ 0 := by
          rcases Nat.lt_or_eq_of_le h2 with h | h
          · exact Or.inl (ih.1.mpr ⟨q, h1, Nat.le_of_lt_succ h, h3⟩)
          · subst h
            exact Or.inr ((rd_boolPow M _ hi hj).mpr h3)
        rw [if_pos hc]
        exact one_ne_zero
    · split
      · exact Or.inr rfl
      · exact Or.inl rfl

theorem chainTo_append {E : Nat → Nat → Prop} {a b : List Nat} {i j : Nat}
    (h : ChainTo E i (a ++ b) j) : ∃ y, ChainTo E i a y ∧ ChainTo E y b j := by
  induction a generalizing i with
  | nil => exact ⟨i, rfl, h⟩
  | cons x a ih =>
    obtain ⟨y, h1, h2⟩ := ih h.2
    exact ⟨y, ⟨h.1, h1⟩, h2⟩

theorem chainTo_nodup {E : Nat → Nat → Prop} {l : List Nat} {i j : Nat}
    (h : ChainTo E i l j) :
    ∃ l', ChainTo E i l' j ∧ l'.Nodup ∧ (l ≠ [] → l' ≠ []) ∧ ∀ x, x ∈ l' → x ∈ l := by
  induction l generalizing i with
  | nil => exact ⟨[], h, List.nodup_nil, fun h => h, fun _ h => h⟩
  | cons x l ih =>
    obtain ⟨l', h1, h2, _, h4⟩ := ih h.2
    by_cases hx : x ∈ l'
    · obtain ⟨a, c, rfl⟩ := List.append_of_mem hx
      obtain ⟨y, _, hy⟩ := chainTo_append h1
      refine ⟨x :: c, ⟨h.1, hy.2⟩, h2.of_append_right, fun _ => List.cons_ne_nil _ _, ?_⟩
      intro z hz
      rcases List.mem_cons.mp hz with hz | hz
      · exact hz ▸ List.mem_cons_self _ _
      · exact List.mem_cons_of_mem _ (h4 z (List.mem_append_right _ (List.mem_cons_of_mem _ hz)))
    · refine ⟨x :: l', ⟨h.1, h1⟩, List.nodup_cons.mpr ⟨hx, h2⟩, fun _ => List.cons_ne_nil _ _, ?_⟩
      intro z hz
      rcases List.mem_cons.mp hz with hz | hz
      · exact hz ▸ List.mem_cons_self _ _
      · exact List.mem_cons_of_mem _ (h4 z hz)

theorem chainTo_lt {n : Nat} {M : Store} {l : List Nat} {i j : Nat}
    (h : ChainTo (Rel n M) i l j) : ∀ x, x ∈ l → x < n := by
  induction l generalizing i with
  | nil => intro x hx; exact absurd hx (List.not_mem_nil x)
  | cons y l ih =>
    intro x hx
    rcases List.mem_cons.mp hx with hx | hx
    · exact hx ▸ h.1.2.1
    · exact ih h.2 x hx

theorem nodup_length_le {n : Nat} {l : List Nat} (hn : l.Nodup) (hl : ∀ x, x ∈ l → x < n) :
    l.length ≤ n := by
  have h1 : l.toFinset ⊆ Finset.range n := by
    intro x hx
    exact Finset.mem_range.mpr (hl x (List.mem_toFinset.mp hx))
  have h2 := Finset.card_le_card h1
  rwa [List.toFinset_card_of_nodup hn, Finset.card_range] at h2

theorem chainTo_walk {E : Nat → Nat → Prop} {l : List Nat} {i j : Nat}
    (h : ChainTo E i l j) : Walk E l.length i j := by
  induction l generalizing i with
  | nil => cases h; exact Walk.refl _
  | cons x l ih => exact Walk.cons h.1 (ih h.2)

theorem pathLt_chainTo {E : Nat → Nat → Prop} {k i j : Nat} (h : PathLt E k i j) :
    ∃ l, l ≠ [] ∧ ChainTo E i l j := by
  induction h with
  | @edge i j he => exact ⟨[j], List.cons_ne_nil _ _, he, rfl⟩
  | cons he _ _ ih =>
    obtain ⟨l, _, hl⟩ := ih
    exact ⟨_ :: l, List.cons_ne_nil _ _, he, hl⟩

theorem walk_pathLt {n : Nat} {M : Store} {p i j : Nat} (h : Walk (Rel n M) (p + 1) i j) :
    PathLt (Rel n M) n i j := by
  induction p generalizing i with
  | zero =>
    cases h with
    | cons he hw => cases hw; exact PathLt.edge he
  | succ p ih =>
    cases h with
    | cons he hw => exact PathLt.cons he he.2.1 (ih hw)

/-- A path exists exactly when a walk of between 1 and `n` steps exists. -/
theorem pathLt_iff_walk {n : Nat} {M : Store} {i j : Nat} :
    PathLt (Rel n M) n i j ↔ ∃ q, 1 ≤ q ∧ q ≤ n ∧ Walk (Rel n M) q i j := by
  constructor
  · intro h
    obtain ⟨l, hne, hl⟩ := pathLt_chainTo h
    obtain ⟨l', h1, h2, h3, _⟩ := chainTo_nodup hl
    refine ⟨l'.length, ?_, nodup_length_le h2 (chainTo_lt h1), chainTo_walk h1⟩
    exact Nat.succ_le_of_lt (List.length_pos.mpr (h3 hne))
  · rintro ⟨q, h1, _, h3⟩
    obtain ⟨p, rfl⟩ : ∃ p, q = p + 1 := ⟨q - 1, by omega⟩
    exact walk_pathLt h3

/-- C4: for every `n x n` 0/1 matrix `M` the matrix computed by the copy and the Warshall
triple loop equals the entrywise OR of the boolean powers `M v M^2 v ... v M^n`, and its cell
`(i, j)` is true exactly when `M` has a walk of between 1 and `n` steps from `i` to `j`. -/
theorem closure_eq_orPowers (n : Nat) (M : Store) (heapW : Nat → Int)
    (hM : IsBoolMatrix n M) :
    ∃ st, closure n ⟨M, malloc heapW (n * n)⟩ = .ok st ∧ st.w = orPowers n M n ∧
      ∀ i j, i < n → j < n →
        (rd st.w n i j ≠ 0 ↔ ∃ q, 1 ≤ q ∧ q ≤ n ∧ Walk (Rel n M) q i j) := by
  obtain ⟨st, hst, _, hl, hc⟩ := closure_ok n ⟨M, malloc heapW (n * n)⟩ hM.1
    (malloc_length _ _)
  have hwalk : ∀ i j, i < n → j < n →
      (rd st.w n i j ≠ 0 ↔ ∃ q, 1 ≤ q ∧ q ≤ n ∧ Walk (Rel n M) q i j) :=
    fun i j hi hj => (hc i j hi hj).1.trans pathLt_iff_walk
  refine ⟨st, hst, store_ext hl (orPowers_length n M n) ?_, hwalk⟩
  intro i j hi hj
  obtain ⟨p1, p2⟩ := rd_orPowers M n hi hj
  have h3 : rd st.w n i j ≠ 0 ↔ rd (orPowers n M n) n i j ≠ 0 :=
    (hwalk i j hi hj).trans p1.symm
  rcases (hc i j hi hj).2 with h2 | h2 <;> rcases p2 with h4 | h4 <;> rw [h2, h4] at h3 <;>
    first
      | exact absurd (h3.mpr one_ne_zero) (fun h => h rfl)
      | exact absurd (h3.mp one_ne_zero) (fun h => h rfl)
      | rw [h2, h4]

theorem closure_eq_orPowers_witness :
    IsBoolMatrix 3 [0, 1, 0, 0, 0, 1, 1, 0, 0] ∧
    ∃ st, closure 3 ⟨[0, 1, 0, 0, 0, 1, 1, 0, 0], malloc (fun _ => 7) (3 * 3)⟩ = .ok st ∧
      st.w = orPowers 3 [0, 1, 0, 0, 0, 1, 1, 0, 0] 3 ∧
      ∀ i j, i < 3 → j < 3 →
        (rd st.w 3 i j ≠ 0 ↔ ∃ q, 1 ≤ q ∧ q ≤ 3 ∧ Walk (Rel 3 [0, 1, 0, 0, 0, 1, 1, 0, 0]) q i j) :=
  ⟨by decide, closure_eq_orPowers 3 [0, 1, 0, 0, 0, 1, 1, 0, 0] (fun _ => 7) (by decide)⟩

/-! ## Parsing one row -/

theorem charAt_lt_lineLen {s : List Char} {i : Nat} (h : i < lineLen s) :
    ¬ (charAt s i = '\n' ∨ charAt s i = Char.ofNat 0) := by
  induction s generalizing i with
  | nil => simp [lineLen] at h
  | cons c t ih =>
    by_cases hc : c ≠ '\n' ∧ c ≠ Char.ofNat 0
    · have hl : lineLen (c :: t) = lineLen t + 1 := by
        simp [lineLen, List.takeWhile_cons, hc]
      cases i with
      | zero =>
        intro h'
        rcases h' with h' | h'
        · exact hc.1 h'
        · exact hc.2 h'
      | succ k =>
        rw [hl] at h
        exact ih (Nat.lt_of_succ_lt_succ h)
    · have hl : lineLen (c :: t) = 0 := by
        simp only [lineLen, List.takeWhile_cons]
        rw [if_neg (by simpa using hc)]
        rfl
      rw [hl] at h
      exact absurd h (Nat.not_lt_zero _)

theorem charAt_lineLen (s : List Char) :
    charAt s (lineLen s) = '\n' ∨ charAt s (lineLen s) = Char.ofNat 0 := by
  induction s with
  | nil => exact Or.inr rfl
  | cons c t ih =>
    by_cases hc : c ≠ '\n' ∧ c ≠ Char.ofNat 0
    · have hl : lineLen (c :: t) = lineLen t + 1 := by
        simp [lineLen, List.takeWhile_cons, hc]
      rw [hl]
      exact ih
    · have hl : lineLen (c :: t) = 0 := by
        simp only [lineLen, List.takeWhile_cons]
        rw [if_neg (by simpa using hc)]
        rfl
      rw [hl]
      by_cases h1 : c = '\n'
      · exact Or.inl h1
      · by_cases h2 : c = Char.ofNat 0
        · exact Or.inr h2
        · exact absurd ⟨h1, h2⟩ hc

theorem lineLen_le_length (s : List Char) : lineLen s ≤ s.length := by
  unfold lineLen
  exact (List.takeWhile_sublist _).length_le

/-- What the parse loop does from position `i` on: it stores the cells of the flat positions
`n * row + i` up to `n * row + e`, where `e` is the end of the line or of the loop, and no
other; it faults only when one of these lies outside the block. -/
theorem parseFrom_spec (n row : Nat) (s : List Char) (fuel i : Nat) (m : Store)
    (hi : i ≤ lineLen s) (hfit : cell n row (min (lineLen s) (i + fuel)) ≤ m.length) :
    ∃ m', parseFrom n row s fuel i m = .ok m' ∧ m'.length = m.length ∧
      ∀ a, m'.getD a 0 =
        if cell n row i ≤ a ∧ a < cell n row (min (lineLen s) (i + fuel)) then
          (if charAt s (a - cell n row 0) = '1' then 1 else 0)
        else m.getD a 0 := by
  induction fuel generalizing i m with
  | zero =>
    refine ⟨m, rfl, rfl, ?_⟩
    intro a
    have : ¬ (cell n row i ≤ a ∧ a < cell n row (min (lineLen s) (i + 0))) := by
      unfold cell; omega
    rw [if_neg this]
  | succ fuel ih =>
    rcases Nat.lt_or_eq_of_le hi with hlt | heq
    · have hc := charAt_lt_lineLen hlt
      have hin : cell n row i < m.length := by
        unfold cell at hfit ⊢; omega
      have hfit' : cell n row (min (lineLen s) (i + 1 + fuel)) ≤
          (m.set (cell n row i) (if charAt s i = '1' then 1 else 0)).length := by
        rw [List.length_set]
        have : i + 1 + fuel = i + (fuel + 1) := by omega
        rw [this]; exact hfit
      obtain ⟨m', h1, h2, h3⟩ := ih (i + 1) _ hlt hfit'
      refine ⟨m', ?_, by rw [h2, List.length_set], ?_⟩
      · rw [parseFrom, if_neg hc, store_ok _ hin]
        exact h1
      · intro a
        rw [h3 a]
        have e : i + 1 + fuel = i + (fuel + 1) := by omega
        rw [e]
        by_cases ha : a = cell n row i
        · subst ha
          have c1 : ¬ (cell n row (i + 1) ≤ cell n row i ∧
              cell n row i < cell n row (min (lineLen s) (i + (fuel + 1)))) := by
            unfold cell; omega
          have c2 : cell n row i ≤ cell n row i ∧
              cell n row i < cell n row (min (lineLen s) (i + (fuel + 1))) := by
            unfold cell; omega
          have c3 : cell n row i - cell n row 0 = i := by unfold cell; omega
          rw [if_neg c1, if_pos c2, c3]
          simp [List.getD_eq_getElem?_getD, List.getElem?_set, hin]
        · have c1 : (cell n row (i + 1) ≤ a ∧
              a < cell n row (min (lineLen s) (i + (fuel + 1)))) ↔
              (cell n row i ≤ a ∧ a < cell n row (min (lineLen s) (i + (fuel + 1)))) := by
            unfold cell at ha ⊢; omega
          have c2 : (m.set (cell n row i) (if charAt s i = '1' then 1 else 0)).getD a 0 =
              m.getD a 0 := by
            simp [List.getD_eq_getElem?_getD, List.getElem?_set, Ne.symm ha]
          simp only [c1, c2]
    · refine ⟨m, ?_, rfl, ?_⟩
      · rw [parseFrom, if_pos (heq ▸ charAt_lineLen s)]
      · intro a
        have : ¬ (cell n row i ≤ a ∧ a < cell n row (min (lineLen s) (i + (fuel + 1)))) := by
          unfold cell; omega
        rw [if_neg this]

/-- The parse loop of one row whose line fits the buffer: the cells it stores. -/
theorem parseRow_spec (n row : Nat) (s : List Char) (m : Store) (hs : s.length < MAXSIZE)
    (hfit : cell n row (lineLen s) ≤ m.length) :
    ∃ m', parseRow n row s m = .ok m' ∧ m'.length = m.length ∧
      ∀ a, m'.getD a 0 =
        if cell n row 0 ≤ a ∧ a < cell n row (lineLen s) then
          (if charAt s (a - cell n row 0) = '1' then 1 else 0)
        else m.getD a 0 := by
  have hl := lineLen_le_length s
  have hmin : min (lineLen s) (0 + MAXSIZE) = lineLen s := by omega
  have := parseFrom_spec n row s MAXSIZE 0 m (Nat.zero_le _) (by rw [hmin]; exact hfit)
  rw [hmin] at this
  exact this

/-- The parse loop faults when a character of the line in front of the terminator has its
cell outside the block. -/
theorem parseFrom_fault (n row : Nat) (s : List Char) (fuel i : Nat) (m : Store)
    (hi : i ≤ lineLen s) (hin : cell n row i ≤ m.length)
    (hout : m.length < cell n row (min (lineLen s) (i + fuel))) :
    parseFrom n row s fuel i m = .error .outOfBounds := by
  induction fuel generalizing i m with
  | zero =>
    exfalso
    unfold cell at hin hout
    omega
  | succ fuel ih =>
    rcases Nat.lt_or_eq_of_le hi with hlt | heq
    · have hc := charAt_lt_lineLen hlt
      rw [parseFrom, if_neg hc]
      by_cases hcell : cell n row i < m.length
      · rw [store_ok _ hcell]
        have e : i + 1 + fuel = i + (fuel + 1) := by omega
        exact ih (i + 1) _ hlt (by rw [List.length_set]; unfold cell at hcell ⊢; omega)
          (by rw [List.length_set, e]; exact hout)
      · have : store m (cell n row i) (if charAt s i = '1' then 1 else 0) =
            .error .outOfBounds := by
          simp [store, hcell]
        rw [this]
        rfl
    · exfalso
      unfold cell at hin hout
      omega

/-- C8: row parsing maps characters positionally: when the line fits the buffer and the cells
of its characters lie inside the block, the parse loop returns, and for every position `p`
below `n` and below the number of characters in front of the terminator the cell `m[row][p]`
is `1` if the character at `p` is the digit `1` and `0` for every other character. -/
theorem parseRow_positional (n row : Nat) (s : List Char) (m : Store) (hs : s.length < MAXSIZE)
    (hfit : cell n row (lineLen s) ≤ m.length) :
    ∃ m', parseRow n row s m = .ok m' ∧
      ∀ p, p < n → p < lineLen s → rd m' n row p = if charAt s p = '1' then 1 else 0 := by
  obtain ⟨m', h1, _, h3⟩ := parseRow_spec n row s m hs hfit
  refine ⟨m', h1, ?_⟩
  intro p _ hp
  unfold rd
  rw [h3]
  have c1 : cell n row 0 ≤ cell n row p ∧ cell n row p < cell n row (lineLen s) := by
    unfold cell; omega
  have c2 : cell n row p - cell n row 0 = p := by unfold cell; omega
  rw [if_pos c1, c2]

theorem parseRow_positional_witness :
    "1x9\n".toList.length < MAXSIZE ∧
    cell 4 1 (lineLen "1x9\n".toList) ≤ (malloc (fun _ => 7) 16).length ∧
    ∃ m', parseRow 4 1 "1x9\n".toList (malloc (fun _ => 7) 16) = .ok m' ∧
      ∀ p, p < 4 → p < lineLen "1x9\n".toList →
        rd m' 4 1 p = if charAt "1x9\n".toList p = '1' then 1 else 0 :=
  ⟨by decide, by decide,
    parseRow_positional 4 1 "1x9\n".toList (malloc (fun _ => 7) 16) (by decide) (by decide)⟩

/-- The cells of a row behind the last character of its line are not stored by the parse
loop: they hold what the block held before. -/
theorem parseRow_keeps_rest (n row : Nat) (s : List Char) (m : Store) (hs : s.length < MAXSIZE)
    (hfit : cell n row (lineLen s) ≤ m.length) :
    ∃ m', parseRow n row s m = .ok m' ∧
      ∀ p, lineLen s ≤ p → rd m' n row p = rd m n row p := by
  obtain ⟨m', h1, _, h3⟩ := parseRow_spec n row s m hs hfit
  refine ⟨m', h1, ?_⟩
  intro p hp
  unfold rd
  rw [h3]
  have c1 : ¬ (cell n row 0 ≤ cell n row p ∧ cell n row p < cell n row (lineLen s)) := by
    unfold cell; omega
  rw [if_neg c1]

/-- C9 (the code differs): a short row is not padded with false. Parsing `101` as row 1 with
`n = 4` in a block that held 7 everywhere leaves `m[1][3] = 7`. The run on the lines `000`,
`111111`, `1` (blocks zero) ends with row 2 = `1 1 1`, not `1 0 0`: the cells behind the one
character of the third line hold what the second line stored there. The run on the lines `11`
and the empty line with a block that held 1 everywhere builds the matrix `1 1 / 1 1` and
prints all four pairs as the relation. -/
theorem short_row_not_padded :
    parseRow 4 1 "101\n".toList (malloc (fun _ => 7) 16) =
      .ok [7, 7, 7, 7, 1, 0, 1, 7, 7, 7, 7, 7, 7, 7, 7, 7] ∧
    (main "000\n111111\n1\n".toList [] (fun _ => 0) (fun _ => 0)).map (fun r => r.m) =
      .ok [0, 0, 0, 1, 1, 1, 1, 1, 1] ∧
    (main "11\n\n".toList [] (fun _ => 1) (fun _ => 0)).map (fun r => r.m) = .ok [1, 1, 1, 1] ∧
    (main "11\n\n".toList [] (fun _ => 1) (fun _ => 0)).map (fun r => print_set "R" r.m r.n) =
      .ok (.ok "R = \x7b (a, a), (a, b), (b, a), (b, b) \x7d\n") := by
  decide

/-- C10 (the code differs): the characters behind position `n` are stored too, in the cells
of the following rows or outside the block. Parsing `10x1extra` as row 0 with `n = 3` in a
block that held 7 everywhere overwrites rows 1 and 2; as row 2 it stores outside the block; the
run on the lines `000`, `0001` and the empty line ends with `m[2][0] = 1`; and the run on the
lines `00`, `001` stores outside the block. -/
theorem long_row_overflows :
    parseRow 3 0 "10x1extra".toList (malloc (fun _ => 7) 9) = .ok [1, 0, 0, 1, 0, 0, 0, 0, 0] ∧
    parseRow 3 2 "10x1extra".toList (malloc (fun _ => 7) 9) = .error .outOfBounds ∧
    (main "000\n0001\n\n".toList [] (fun _ => 0) (fun _ => 0)).map (fun r => r.m) =
      .ok [0, 0, 0, 0, 0, 0, 1, 0, 0] ∧
    (main "00\n001\n".toList [] (fun _ => 0) (fun _ => 0)).map (fun r => r.m) =
      .error .outOfBounds := by
  decide

/-! ## The run on the lines `1010`, `0100`, `0010`, `0001` -/

theorem closure_heap_irrelevant (n : Nat) (M W W' : Store) (hM : M.length = n * n)
    (hW : W.length = n * n) (hW' : W'.length = n * n) :
    closure n ⟨M, W⟩ = closure n ⟨M, W'⟩ := by
  obtain ⟨s1, e1, m1, l1, c1⟩ := closure_ok n ⟨M, W⟩ hM hW
  obtain ⟨s2, e2, m2, l2, c2⟩ := closure_ok n ⟨M, W'⟩ hM hW'
  have hw : s1.w = s2.w := by
    apply store_ext l1 l2
    intro i j hi hj
    have h3 : rd s1.w n i j ≠ 0 ↔ rd s2.w n i j ≠ 0 :=
      (c1 i j hi hj).1.trans (c2 i j hi hj).1.symm
    rcases (c1 i j hi hj).2 with h2 | h2 <;> rcases (c2 i j hi hj).2 with h4 | h4 <;>
      rw [h2, h4] at h3 <;>
      first
        | exact absurd (h3.mpr one_ne_zero) (fun h => h rfl)
        | exact absurd (h3.mp one_ne_zero) (fun h => h rfl)
        | rw [h2, h4]
  have hs : s1 = s2 := by
    cases s1; cases s2
    simp only [Mem.mk.injEq]
    exact ⟨m1.trans m2.symm, hw⟩
  rw [e1, e2, hs]

theorem report_heap_irrelevant (n : Nat) (M : Store) (out : String) (heapW heapW' : Nat → Int)
    (hM : M.length = n * n) : report n M out heapW = report n M out heapW' := by
  unfold report
  rw [closure_heap_irrelevant n M (malloc heapW (n * n)) (malloc heapW' (n * n)) hM
    (malloc_length _ _) (malloc_length _ _)]

theorem forLoop_four {σ : Type} (body : Nat → σ → Except Fault σ) (s : σ) :
    forLoop 4 body s = (((body 0 s >>= body 1) >>= body 2) >>= body 3) := rfl

theorem scenario_read (buf : List Char) (hm : Nat → Int) :
    readMatrix "1010\n0100\n0010\n0001\n".toList buf hm =
      .ok (4, ⟨"0001\n".toList, [], [1, 0, 1, 0, 0, 1, 0, 0, 0, 0, 1, 0, 0, 0, 0, 1],
        "We\x27ll build the nxn relation matrix one row at a time. For example,\n" ++
        "entering the first row as 1010 will result in a 4x4 matrix.\n\n" ++
        "Enter row 1: Enter row 2: Enter row 3: Enter row 4: "⟩) := by
  have hf : fgets buf MAXSIZE "1010\n0100\n0010\n0001\n".toList =
      ("1010\n".toList, "0100\n0010\n0001\n".toList) := rfl
  have hs : strlen "1010\n".toList = 5 := by decide
  have r0 : ∀ out, readRow 4 0
      ⟨"1010\n".toList, "0100\n0010\n0001\n".toList, malloc hm (4 * 4), out⟩ =
      .ok ⟨"1010\n".toList, "0100\n0010\n0001\n".toList,
        [1, 0, 1, 0, hm 4, hm 5, hm 6, hm 7, hm 8, hm 9, hm 10, hm 11, hm 12, hm 13, hm 14, hm 15],
        out⟩ := fun _ => rfl
  have r1 : ∀ out, readRow 4 1 ⟨"1010\n".toList, "0100\n0010\n0001\n".toList,
        [1, 0, 1, 0, hm 4, hm 5, hm 6, hm 7, hm 8, hm 9, hm 10, hm 11, hm 12, hm 13, hm 14, hm 15],
        out⟩ =
      .ok ⟨"0100\n".toList, "0010\n0001\n".toList,
        [1, 0, 1, 0, 0, 1, 0, 0, hm 8, hm 9, hm 10, hm 11, hm 12, hm 13, hm 14, hm 15],
        out ++ "Enter row " ++ toString 2 ++ ": "⟩ := fun _ => rfl
  have r2 : ∀ out, readRow 4 2 ⟨"0100\n".toList, "0010\n0001\n".toList,
        [1, 0, 1, 0, 0, 1, 0, 0, hm 8, hm 9, hm 10, hm 11, hm 12, hm 13, hm 14, hm 15], out⟩ =
      .ok ⟨"0010\n".toList, "0001\n".toList,
        [1, 0, 1, 0, 0, 1, 0, 0, 0, 0, 1, 0, hm 12, hm 13, hm 14, hm 15],
        out ++ "Enter row " ++ toString 3 ++ ": "⟩ := fun _ => rfl
  have r3 : ∀ out, readRow 4 3 ⟨"0010\n".toList, "0001\n".toList,
        [1, 0, 1, 0, 0, 1, 0, 0, 0, 0, 1, 0, hm 12, hm 13, hm 14, hm 15], out⟩ =
      .ok ⟨"0001\n".toList, [],
        [1, 0, 1, 0, 0, 1, 0, 0, 0, 0, 1, 0, 0, 0, 0, 1],
        out ++ "Enter row " ++ toString 4 ++ ": "⟩ := fun _ => rfl
  have e1 : ∀ (x : Input) (f : Input → Except Fault Input), (Except.ok x >>= f) = f x :=
    fun _ _ => rfl
  unfold readMatrix
  rw [hf]
  simp only [hs]
  rw [if_neg (by decide)]
  show (forLoop 4 (readRow 4) ⟨_, _, malloc hm (4 * 4), _⟩ >>= fun inp => pure (4, inp)) = _
  rw [forLoop_four, r0, e1, r1, e1, r2, e1, r3]
  rfl

set_option maxRecDepth 100000

/-- C7 (as the code has it): on the four input lines `1010`, `0100`, `0010`, `0001`, whatever
the buffer and the two fresh blocks held, the run ends with `n = 4`, the closure matrix has
row0 = `1 0 1 0`, row1 = `0 1 0 0`, row2 = `0 0 1 0`, row3 = `0 0 0 1` (the relation is already
transitive), and the last line written is
`R* = { (a, a), (a, c), (b, b), (c, c), (d, d) }`. -/
theorem scenario_closure (buf : List Char) (heapM heapW : Nat → Int) :
    main "1010\n0100\n0010\n0001\n".toList buf heapM heapW =
      .ok ⟨4, [1, 0, 1, 0, 0, 1, 0, 0, 0, 0, 1, 0, 0, 0, 0, 1],
        [1, 0, 1, 0, 0, 1, 0, 0, 0, 0, 1, 0, 0, 0, 0, 1],
        "We\x27ll build the nxn relation matrix one row at a time. For example,\n" ++
        "entering the first row as 1010 will result in a 4x4 matrix.\n\n" ++
        "Enter row 1: Enter row 2: Enter row 3: Enter row 4: " ++
        "\nCreated a 4x4 matrix.\n" ++
        "\nMatrix of the relation R:\n\n" ++
        " 1  0  1  0 \n 0  1  0  0 \n 0  0  1  0 \n 0  0  0  1 \n" ++ "\n" ++
        "R = \x7b (a, a), (a, c), (b, b), (c, c), (d, d) \x7d\n" ++
        "\nMatrix of its transitive closure R*:\n\n" ++
        " 1  0  1  0 \n 0  1  0  0 \n 0  0  1  0 \n 0  0  0  1 \n" ++ "\n" ++
        "R* = \x7b (a, a), (a, c), (b, b), (c, c), (d, d) \x7d\n"⟩ ∧
    print_set "R*" [1, 0, 1, 0, 0, 1, 0, 0, 0, 0, 1, 0, 0, 0, 0, 1] 4 =
      .ok "R* = \x7b (a, a), (a, c), (b, b), (c, c), (d, d) \x7d\n" := by
  refine ⟨?_, by decide⟩
  have e1 : ∀ (x : Nat × Input) (f : Nat × Input → Except Fault Run),
      (Except.ok x >>= f) = f x := fun _ _ => rfl
  unfold main
  rw [scenario_read, e1]
  dsimp only
  rw [report_heap_irrelevant 4 _ _ heapW (fun _ => 0) (by decide)]
  decide

/-- C7 as stated fails: on these four lines (buffer empty, blocks zero) the closure matrix is
not `1 1 1 1 / 0 1 0 0 / 0 0 1 0 / 0 0 0 1` and the set line written for it is not
`R* = { (a, a), (a, b), (a, c), (a, d), (b, b), (c, c), (d, d) }`. -/
theorem scenario_as_stated_fails :
    (main "1010\n0100\n0010\n0001\n".toList [] (fun _ => 0) (fun _ => 0)).map (fun r => r.w) ≠
      .ok [1, 1, 1, 1, 0, 1, 0, 0, 0, 0, 1, 0, 0, 0, 0, 1] ∧
    (main "1010\n0100\n0010\n0001\n".toList [] (fun _ => 0) (fun _ => 0)).map
        (fun r => print_set "R*" r.w r.n) ≠
      .ok (.ok "R* = \x7b (a, a), (a, b), (a, c), (a, d), (b, b), (c, c), (d, d) \x7d\n") := by
  decide

/-! ## Further properties of the closure -/

theorem PathLt.imp {E E' : Nat → Nat → Prop} {k i j : Nat} (h : ∀ a b, E a b → E' a b)
    (hp : PathLt E k i j) : PathLt E' k i j := by
  induction hp with
  | edge he => exact PathLt.edge (h _ _ he)
  | cons he hx _ ih => exact PathLt.cons (h _ _ he) hx ih

theorem forLoop_split {σ : Type} (a d : Nat) (body : Nat → σ → Except Fault σ) (s : σ) :
    forLoop (a + d) body s = forLoop a body s >>= forLoopFrom a body d := by
  induction d with
  | zero =>
    show forLoop a body s = forLoop a body s >>= pure
    rw [bind_pure]
  | succ d ih =>
    show forLoop (a + d) body s >>= body (a + d) =
      forLoop a body s >>= fun t => forLoopFrom a body d t >>= body (a + d)
    rw [ih, bind_assoc]

/-- The first `K` turns of the outer loop, `K ≤ n`: the cell `(a, b)` of `w` is true exactly
when the matrix at the start has a path from `a` to `b` with inner nodes below `K`. -/
theorem warshallPrefix_ok {n K : Nat} {st0 : Mem} (hK : K ≤ n) (hw : st0.w.length = n * n) :
    ∃ st, forLoop K (fun k => warshallIter n k) st0 = .ok st ∧ st.m = st0.m ∧
      st.w.length = n * n ∧
      ∀ a b, a < n → b < n →
        (rd st.w n a b ≠ 0 ↔ PathLt (Rel n st0.w) K a b) ∧
        (0 < K → rd st.w n a b = 0 ∨ rd st.w n a b = 1) := by
  exact forLoop_rule
    (fun k st => st.m = st0.m ∧ st.w.length = n * n ∧
      ∀ a b, a < n → b < n →
        (rd st.w n a b ≠ 0 ↔ PathLt (Rel n st0.w) k a b) ∧
        (0 < k → rd st.w n a b = 0 ∨ rd st.w n a b = 1)) K
    (fun k => warshallIter n k) st0
    ⟨rfl, hw, fun a b ha hb => ⟨by
      rw [pathLt_zero]
      exact ⟨fun h => ⟨ha, hb, h⟩, fun h => h.2.2⟩, fun h => absurd h (Nat.lt_irrefl 0)⟩⟩ (by
      intro k t hk ⟨t1, t2, t3⟩
      have hkn : k < n := Nat.lt_of_lt_of_le hk hK
      obtain ⟨t', ht', g1, g2, g3⟩ := warshallIter_ok t2 hkn
      refine ⟨t', ht', g1.trans t1, g2, ?_⟩
      intro a b ha hb
      rw [g3 a b ha hb]
      refine ⟨?_, fun _ => orAnd_bool _ _ _⟩
      rw [orAnd_ne_zero, pathLt_succ, (t3 a b ha hb).1, (t3 a k ha hkn).1, (t3 k b hkn hb).1])

/-- C17: loop invariant of the Warshall iteration. For every `n x n` 0/1 matrix `M` and every
`k` in `0..n-1`, the copy followed by the turns `0..k` of the outer loop returns a state in
which `w[i][j]` is true exactly when `M` has a path from `i` to `j` (of at least one step)
whose inner nodes all lie in `0..k`, although each turn updates `w` in place; and the whole
closure run is this state followed by the remaining turns `k+1..n-1`. -/
theorem warshall_invariant (n : Nat) (M : Store) (heapW : Nat → Int) (k : Nat)
    (hM : IsBoolMatrix n M) (hk : k < n) :
    ∃ st, (copyLoop n ⟨M, malloc heapW (n * n)⟩ >>=
        forLoop (k + 1) (fun k => warshallIter n k)) = .ok st ∧
      (∀ i j, i < n → j < n → (rd st.w n i j ≠ 0 ↔ PathLt (Rel n M) (k + 1) i j)) ∧
      closure n ⟨M, malloc heapW (n * n)⟩ =
        forLoopFrom (k + 1) (fun k => warshallIter n k) (n - (k + 1)) st := by
  obtain ⟨s1, e1, _, l1, c1⟩ := @copyLoop_ok n ⟨M, malloc heapW (n * n)⟩ hM.1
    (malloc_length _ _)
  obtain ⟨s2, e2, _, _, c2⟩ := @warshallPrefix_ok n (k + 1) s1 (Nat.succ_le_of_lt hk) l1
  have e3 : ∀ (x : Mem) (f : Mem → Except Fault Mem), (Except.ok x >>= f) = f x :=
    fun _ _ => rfl
  refine ⟨s2, ?_, ?_, ?_⟩
  · rw [e1, e3]
    exact e2
  · intro i j hi hj
    rw [← rel_congr c1]
    exact (c2 i j hi hj).1
  · have hn : (k + 1) + (n - (k + 1)) = n := by omega
    have hs := forLoop_split (k + 1) (n - (k + 1)) (fun k => warshallIter n k) s1
    rw [hn, e2, e3] at hs
    unfold closure warshallLoop
    rw [e1, e3]
    exact hs

theorem warshall_invariant_witness :
    IsBoolMatrix 3 [0, 1, 0, 0, 0, 1, 1, 0, 0] ∧ 1 < 3 ∧
    ∃ st, (copyLoop 3 ⟨[0, 1, 0, 0, 0, 1, 1, 0, 0], malloc (fun _ => 7) (3 * 3)⟩ >>=
        forLoop (1 + 1) (fun k => warshallIter 3 k)) = .ok st ∧
      (∀ i j, i < 3 → j < 3 →
        (rd st.w 3 i j ≠ 0 ↔ PathLt (Rel 3 [0, 1, 0, 0, 0, 1, 1, 0, 0]) (1 + 1) i j)) ∧
      closure 3 ⟨[0, 1, 0, 0, 0, 1, 1, 0, 0], malloc (fun _ => 7) (3 * 3)⟩ =
        forLoopFrom (1 + 1) (fun k => warshallIter 3 k) (3 - (1 + 1)) st :=
  ⟨by decide, by decide,
    warshall_invariant 3 [0, 1, 0, 0, 0, 1, 1, 0, 0] (fun _ => 7) 1 (by decide) (by decide)⟩

/-- C19: a transitive relation is its own closure. For every `n x n` 0/1 matrix `M` that is
transitive, the copy and the triple loop return a matrix `w` equal to `M` cell for cell. -/
theorem closure_fixes_transitive (n : Nat) (M : Store) (heapW : Nat → Int)
    (hM : IsBoolMatrix n M) (ht : Transitive n M) :
    ∃ st, closure n ⟨M, malloc heapW (n * n)⟩ = .ok st ∧ st.w = M ∧
      ∀ i j, i < n → j < n → rd st.w n i j = rd M n i j := by
  obtain ⟨st, hst, _, hw⟩ := closure_of_transitive n ⟨M, malloc heapW (n * n)⟩ hM
    (malloc_length _ _) ht
  exact ⟨st, hst, hw, fun i j _ _ => by rw [hw]⟩

theorem closure_fixes_transitive_witness :
    IsBoolMatrix 3 [1, 1, 1, 0, 0, 0, 0, 1, 1] ∧ Transitive 3 [1, 1, 1, 0, 0, 0, 0, 1, 1] ∧
    ∃ st, closure 3 ⟨[1, 1, 1, 0, 0, 0, 0, 1, 1], malloc (fun _ => 7) (3 * 3)⟩ = .ok st ∧
      st.w = [1, 1, 1, 0, 0, 0, 0, 1, 1] ∧
      ∀ i j, i < 3 → j < 3 → rd st.w 3 i j = rd [1, 1, 1, 0, 0, 0, 0, 1, 1] 3 i j :=
  ⟨by decide, by decide,
    closure_fixes_transitive 3 [1, 1, 1, 0, 0, 0, 0, 1, 1] (fun _ => 7) (by decide)
      (by decide)⟩

/-- C20: the closure computation is monotone. For all `n x n` 0/1 matrices `M` and `M'` with
`M[i][j] <= M'[i][j]` for all `i, j`, both closure runs return and the closure of `M` is
cell by cell `<=` the closure of `M'`. -/
theorem closure_monotone (n : Nat) (M M' : Store) (heapW heapW' : Nat → Int)
    (hM : IsBoolMatrix n M) (hM' : IsBoolMatrix n M')
    (hle : ∀ i, i < n → ∀ j, j < n → rd M n i j ≤ rd M' n i j) :
    ∃ st st', closure n ⟨M, malloc heapW (n * n)⟩ = .ok st ∧
      closure n ⟨M', malloc heapW' (n * n)⟩ = .ok st' ∧
      ∀ i j, i < n → j < n → rd st.w n i j ≤ rd st'.w n i j := by
  obtain ⟨st, hst, _, _, hc⟩ := closure_ok n ⟨M, malloc heapW (n * n)⟩ hM.1
    (malloc_length _ _)
  obtain ⟨st', hst', _, _, hc'⟩ := closure_ok n ⟨M', malloc heapW' (n * n)⟩ hM'.1
    (malloc_length _ _)
  refine ⟨st, st', hst, hst', ?_⟩
  have hrel : ∀ a b, Rel n M a b → Rel n M' a b := by
    rintro a b ⟨ha, hb, h⟩
    refine ⟨ha, hb, ?_⟩
    have := hle a ha b hb
    rcases hM.2 a ha b hb with h0 | h1
    · exact absurd h0 h
    · omega
  intro i j hi hj
  obtain ⟨h1, h2⟩ := hc i j hi hj
  obtain ⟨h1', h2'⟩ := hc' i j hi hj
  rcases h2 with h2 | h2
  · rw [h2]
    rcases h2' with h | h <;> simp [h]
  · have hw : rd st.w n i j ≠ 0 := by rw [h2]; decide
    have hne := h1'.mpr ((h1.mp hw).imp hrel)
    rcases h2' with h | h
    · exact absurd h hne
    · rw [h2, h]

theorem closure_monotone_witness :
    IsBoolMatrix 2 [0, 1, 0, 0] ∧ IsBoolMatrix 2 [0, 1, 1, 0] ∧
    (∀ i, i < 2 → ∀ j, j < 2 → rd [0, 1, 0, 0] 2 i j ≤ rd [0, 1, 1, 0] 2 i j) ∧
    ∃ st st', closure 2 ⟨[0, 1, 0, 0], malloc (fun _ => 7) (2 * 2)⟩ = .ok st ∧
      closure 2 ⟨[0, 1, 1, 0], malloc (fun _ => 5) (2 * 2)⟩ = .ok st' ∧
      ∀ i j, i < 2 → j < 2 → rd st.w 2 i j ≤ rd st'.w 2 i j :=
  ⟨by decide, by decide, by decide,
    closure_monotone 2 [0, 1, 0, 0] [0, 1, 1, 0] (fun _ => 7) (fun _ => 5) (by decide)
      (by decide) (by decide)⟩

/-! ## The text written by `print_set` -/

theorem intercalate_go_snoc (acc s x : String) (l : List String) :
    String.intercalate.go acc s (l ++ [x]) = String.intercalate.go acc s l ++ s ++ x := by
  induction l generalizing acc with
  | nil => simp [String.intercalate.go]
  | cons a l ih => simp [String.intercalate.go, ih]

theorem intercalate_snoc (s x : String) (l : List String) :
    s.intercalate (l ++ [x]) = if l = [] then x else s.intercalate l ++ s ++ x := by
  cases l with
  | nil => simp [String.intercalate, String.intercalate.go]
  | cons a l => simp [String.intercalate, intercalate_go_snoc]

theorem letter_eq {x : Nat} (hx : x < 26) : Char.ofNat (x + 97) = letter x := by
  interval_cases x <;> decide

theorem printPair_ok {n i j : Nat} {p : Store} (s : SetOut) (hl : p.length = n * n)
    (hi : i < n) (hj : j < n) :
    printPair p n i j s = .ok (if rd p n i j = 1 then
      ⟨s.out ++ (if s.first then "" else ", ") ++ "(" ++
        String.singleton (Char.ofNat (i + 97)) ++ ", " ++
        String.singleton (Char.ofNat (j + 97)) ++ ")", false⟩ else s) := by
  have h1 : cell n i j < p.length := hl ▸ cell_lt hi hj
  unfold printPair
  rw [load_ok h1]
  show (if p.getD (cell n i j) 0 = 1 then _ else _) = _
  unfold rd
  split <;> rfl

theorem rowPairs_succ (n : Nat) (p : Store) (i j : Nat) :
    rowPairs n p i (j + 1) = rowPairs n p i j ++ (if rd p n i j ≠ 0 then [(i, j)] else []) := by
  unfold rowPairs
  rw [List.range_succ, List.filter_append, List.map_append]
  by_cases h : rd p n i j ≠ 0
  · simp [h]
  · simp [h]

theorem pairsBefore_succ (n : Nat) (p : Store) (i j : Nat) :
    pairsBefore n p i (j + 1) =
      pairsBefore n p i j ++ (if rd p n i j ≠ 0 then [(i, j)] else []) := by
  unfold pairsBefore
  rw [rowPairs_succ, List.append_assoc]

theorem pairsBefore_row (n : Nat) (p : Store) (i : Nat) :
    pairsBefore n p (i + 1) 0 = pairsBefore n p i n := by
  unfold pairsBefore
  rw [List.range_succ, List.flatMap_append]
  simp [rowPairs]

theorem pairsBefore_all (n : Nat) (p : Store) : pairsBefore n p n 0 = truePairs n p := by
  simp [pairsBefore, truePairs, rowPairs]

theorem setInv_step {name : String} {n i j : Nat} {p : Store} {s : SetOut} (hn : n ≤ 26)
    (hp : IsBoolMatrix n p) (hi : i < n) (hj : j < n) (h : SetInv name n p i j s) :
    ∃ s', printPair p n i j s = .ok s' ∧ SetInv name n p i (j + 1) s' := by
  rw [printPair_ok s hp.1 hi hj]
  refine ⟨_, rfl, ?_⟩
  obtain ⟨h1, h2⟩ := h
  rcases hp.2 i hi j hj with h0 | h0
  · have hne : ¬ rd p n i j ≠ 0 := by rw [h0]; decide
    have hne1 : ¬ rd p n i j = 1 := by rw [h0]; decide
    rw [if_neg hne1]
    unfold SetInv
    rw [pairsBefore_succ, if_neg hne, List.append_nil]
    exact ⟨h1, h2⟩
  · have hne : rd p n i j ≠ 0 := by rw [h0]; decide
    rw [if_pos h0]
    unfold SetInv
    rw [pairsBefore_succ, if_pos hne, List.map_append, List.map_singleton, intercalate_snoc]
    constructor
    · show s.out ++ (if s.first = true then "" else ", ") ++ "(" ++
        String.singleton (Char.ofNat (i + 97)) ++ ", " ++
        String.singleton (Char.ofNat (j + 97)) ++ ")" = _
      rw [letter_eq (Nat.lt_of_lt_of_le hi hn), letter_eq (Nat.lt_of_lt_of_le hj hn), h1]
      by_cases he : pairsBefore n p i j = []
      · rw [if_pos (h2.mpr he), he]
        simp only [pairText, String.append_assoc, String.intercalate, List.map_nil,
          String.append_empty, String.empty_append, if_true]
      · have hf : ¬ s.first = true := fun hf => he (h2.mp hf)
        have hm : ¬ List.map pairText (pairsBefore n p i j) = [] := by
          simpa using he
        rw [if_neg hf, if_neg hm]
        simp only [pairText, String.append_assoc]
    · simp

theorem setInv_row {name : String} {n i : Nat} {p : Store} {s : SetOut}
    (h : SetInv name n p i n s) : SetInv name n p (i + 1) 0 s := by
  unfold SetInv at h ⊢
  rw [pairsBefore_row]
  exact h

/-- The text written by `print_set` for a 0/1 matrix of at most 26 rows is the set line and a
newline. -/
theorem print_set_ok (name : String) (n : Nat) (p : Store) (hn : n ≤ 26)
    (hp : IsBoolMatrix n p) : print_set name p n = .ok (setLine name n p ++ "\n") := by
  have h0 : SetInv name n p 0 0 ⟨name ++ " = \x7b ", true⟩ := by
    constructor
    · simp [pairsBefore, rowPairs, String.intercalate]
    · simp [pairsBefore, rowPairs]
  obtain ⟨s, hs, hinv⟩ := forLoop_rule (fun i s => SetInv name n p i 0 s) n
    (fun i => forLoop n (fun j => printPair p n i j)) ⟨name ++ " = \x7b ", true⟩ h0 (by
      intro i t hi ht
      obtain ⟨t', ht', hinv'⟩ := forLoop_rule (fun j s => SetInv name n p i j s) n
        (fun j => printPair p n i j) t ht (fun j u hj hu => setInv_step hn hp hi hj hu)
      exact ⟨t', ht', setInv_row hinv'⟩)
  unfold print_set
  rw [if_neg (by omega), hs]
  show Except.ok (s.out ++ " \x7d" ++ "\n") = _
  rw [hinv.1, pairsBefore_all]
  rfl

theorem truePairs_nil {n : Nat} {p : Store}
    (hz : ∀ i, i < n → ∀ j, j < n → rd p n i j = 0) : truePairs n p = [] := by
  unfold truePairs
  rw [List.flatMap_eq_nil_iff]
  intro i hi
  rw [List.map_eq_nil_iff, List.filter_eq_nil_iff]
  intro j hj
  have := hz i (List.mem_range.mp hi) j (List.mem_range.mp hj)
  simp [this]

theorem append_newline_ne_empty (t : String) : t ++ "\n" ≠ "" := by
  intro h
  have := congrArg String.length h
  rw [String.length_append] at this
  have h1 : "\n".length = 1 := by decide
  have h2 : "".length = 0 := by decide
  omega

/-- C11: for every name and every `n x n` 0/1 matrix with `n <= 26`, `print_set` writes
exactly one line: the name, ` = { `, the pairs `(c_i, c_j)` joined by `, `, and ` }`, where
the pairs are exactly the `(i, j)` with `cell[i][j]` true in row-major order and `c_x` is the
`x`-th lowercase letter. For `n = 3` with true cells only at `(0, 1)` and `(1, 2)` the line is
`R = { (a, b), (b, c) }`. -/
theorem print_set_line (name : String) (n : Nat) (p : Store) (hn : n ≤ 26)
    (hp : IsBoolMatrix n p) :
    print_set name p n = .ok (setLine name n p ++ "\n") ∧
    print_set "R" [0, 1, 0, 0, 0, 1, 0, 0, 0] 3 = .ok "R = \x7b (a, b), (b, c) \x7d\n" :=
  ⟨print_set_ok name n p hn hp, by decide⟩

theorem print_set_line_witness :
    2 ≤ 26 ∧ IsBoolMatrix 2 [1, 0, 1, 1] ∧
    (print_set "S" [1, 0, 1, 1] 2 = .ok (setLine "S" 2 [1, 0, 1, 1] ++ "\n") ∧
    print_set "R" [0, 1, 0, 0, 0, 1, 0, 0, 0] 3 = .ok "R = \x7b (a, b), (b, c) \x7d\n") :=
  ⟨by decide, by decide, print_set_line "S" 2 [1, 0, 1, 1] (by decide) (by decide)⟩

/-- C12: for every name and every all-false `n x n` matrix with `n <= 26`, `print_set` writes
the line `name = {  }`: the braces are printed, with exactly two spaces between them. An
all-false `2 x 2` matrix is written as `R = {  }`. -/
theorem print_set_empty (name : String) (n : Nat) (p : Store) (hn : n ≤ 26)
    (hl : p.length = n * n) (hz : ∀ i, i < n → ∀ j, j < n → rd p n i j = 0) :
    print_set name p n = .ok (name ++ " = \x7b  \x7d" ++ "\n") ∧
    print_set "R" [0, 0, 0, 0] 2 = .ok "R = \x7b  \x7d\n" := by
  refine ⟨?_, by decide⟩
  rw [print_set_ok name n p hn ⟨hl, fun i hi j hj => Or.inl (hz i hi j hj)⟩]
  unfold setLine
  rw [truePairs_nil hz]
  simp only [List.map_nil, String.intercalate, String.append_empty, String.append_assoc]
  rfl

theorem print_set_empty_witness :
    3 ≤ 26 ∧ [0, 0, 0, 0, 0, 0, 0, 0, 0].length = 3 * 3 ∧
    (∀ i, i < 3 → ∀ j, j < 3 → rd [0, 0, 0, 0, 0, 0, 0, 0, 0] 3 i j = 0) ∧
    (print_set "Q" [0, 0, 0, 0, 0, 0, 0, 0, 0] 3 = .ok ("Q" ++ " = \x7b  \x7d" ++ "\n") ∧
    print_set "R" [0, 0, 0, 0] 2 = .ok "R = \x7b  \x7d\n") :=
  ⟨by decide, by decide, by decide,
    print_set_empty "Q" 3 [0, 0, 0, 0, 0, 0, 0, 0, 0] (by decide) (by decide) (by decide)⟩

/-- C13: for every matrix of size `n > 26` and every name, `print_set` writes nothing,
whatever the cells hold; and for `n = 26` it does write the set line, in which the index 25
is labelled `z`. -/
theorem print_set_limit (name : String) (p q : Store) (n : Nat) (hn : 26 < n)
    (hq : IsBoolMatrix 26 q) :
    print_set name p n = .ok "" ∧
    print_set name q 26 = .ok (setLine name 26 q ++ "\n") ∧
    setLine name 26 q ++ "\n" ≠ "" ∧
    Char.ofNat (25 + 97) = 'z' ∧ letter 25 = 'z' ∧ pairText (25, 25) = "(z, z)" := by
  refine ⟨?_, print_set_ok name 26 q (Nat.le_refl 26) hq, append_newline_ne_empty _,
    by decide, by decide, by decide⟩
  unfold print_set
  rw [if_pos hn]

theorem print_set_limit_witness :
    26 < 27 ∧ IsBoolMatrix 26 (tabulate 26 (fun _ => 0)) ∧
    (print_set "R" (tabulate 27 (fun _ => 1)) 27 = .ok "" ∧
    print_set "R" (tabulate 26 (fun _ => 0)) 26 =
      .ok (setLine "R" 26 (tabulate 26 (fun _ => 0)) ++ "\n") ∧
    setLine "R" 26 (tabulate 26 (fun _ => 0)) ++ "\n" ≠ "" ∧
    Char.ofNat (25 + 97) = 'z' ∧ letter 25 = 'z' ∧ pairText (25, 25) = "(z, z)") :=
  ⟨by decide, ⟨tabulate_length _ _, fun _ hi _ hj => Or.inl (rd_tabulate _ hi hj)⟩,
    print_set_limit "R" (tabulate 27 (fun _ => 1)) (tabulate 26 (fun _ => 0)) 27 (by decide)
      ⟨tabulate_length _ _, fun _ hi _ hj => Or.inl (rd_tabulate _ hi hj)⟩⟩

/-! ## The text written by `print_matrix` -/

theorem join_snoc (l : List String) (x : String) : String.join (l ++ [x]) = String.join l ++ x := by
  simp [String.join, List.foldl_append]

theorem printRow_ok {n i : Nat} {p : Store} (hp : IsBoolMatrix n p) (hi : i < n) (j : Nat)
    (hj : j ≤ n) (out : String) :
    printRow p n i j out =
      .ok (out ++ String.join ((List.range j).map (fun j => cellText (rd p n i j)))) := by
  induction j with
  | zero =>
    show Except.ok out = _
    simp [String.join]
  | succ j ih =>
    have hjn : j < n := Nat.lt_of_succ_le hj
    have h1 : cell n i j < p.length := hp.1 ▸ cell_lt hi hjn
    have ht : toString (rd p n i j) = (if rd p n i j = 0 then "0" else "1") := by
      rcases hp.2 i hi j hjn with h | h <;> rw [h] <;> decide
    unfold printRow
    rw [ih (Nat.le_of_lt hjn), load_ok h1]
    show Except.ok (_ ++ " " ++ toString (rd p n i j) ++ " ") = _
    rw [ht, List.range_succ, List.map_append, List.map_singleton, join_snoc]
    simp only [cellText, String.append_assoc]

/-- The text written by `print_matrix` for a 0/1 matrix. -/
theorem print_matrix_ok (n : Nat) (p : Store) (hp : IsBoolMatrix n p) :
    print_matrix p n = .ok (matrixText n p) := by
  obtain ⟨t, ht, hinv⟩ := forLoop_rule
    (fun i out => out = String.join ((List.range i).map (fun i => rowLine n p i ++ "\n"))) n
    (fun i out => do
      let out ← printRow p n i n out
      pure (out ++ "\n")) "" (by simp [String.join]) (by
      intro i t hi ht
      refine ⟨t ++ String.join ((List.range n).map (fun j => cellText (rd p n i j))) ++ "\n",
        ?_, ?_⟩
      · beta_reduce
        rw [printRow_ok hp hi n (Nat.le_refl n)]
        rfl
      · beta_reduce
        rw [ht, List.range_succ, List.map_append, List.map_singleton, join_snoc]
        simp only [rowLine, String.append_assoc])
  unfold print_matrix
  rw [ht, hinv]
  rfl

/-- C16 (as the code has it): for every `n x n` 0/1 matrix, `print_matrix` writes exactly `n`
lines, line `i` holding the `n` cells of row `i` in column order, each cell written as a
space, the single digit `0` or `1`, and a space: the row `[1,0,1,0]` is written as
` 1  0  1  0 ` (a space in front, two spaces between the digits, a space behind). -/
theorem print_matrix_text (n : Nat) (p : Store) (hp : IsBoolMatrix n p) :
    print_matrix p n = .ok (matrixText n p) ∧
    cellText 0 = " 0 " ∧ cellText 1 = " 1 " ∧
    print_matrix [1, 0, 1, 0, 0, 1, 0, 0, 0, 0, 1, 0, 0, 0, 0, 1] 4 =
      .ok " 1  0  1  0 \n 0  1  0  0 \n 0  0  1  0 \n 0  0  0  1 \n" :=
  ⟨print_matrix_ok n p hp, by decide, by decide, by decide⟩

theorem print_matrix_text_witness :
    IsBoolMatrix 2 [1, 0, 1, 1] ∧
    (print_matrix [1, 0, 1, 1] 2 = .ok (matrixText 2 [1, 0, 1, 1]) ∧
    cellText 0 = " 0 " ∧ cellText 1 = " 1 " ∧
    print_matrix [1, 0, 1, 0, 0, 1, 0, 0, 0, 0, 1, 0, 0, 0, 0, 1] 4 =
      .ok " 1  0  1  0 \n 0  1  0  0 \n 0  0  1  0 \n 0  0  0  1 \n") :=
  ⟨by decide, print_matrix_text 2 [1, 0, 1, 1] (by decide)⟩

/-- C16 as stated fails: the matrix with first row `[1,0,1,0]` is not written with the digits
separated by single spaces (`1 0 1 0`). -/
theorem print_matrix_single_spaces_fails :
    print_matrix [1, 0, 1, 0, 0, 1, 0, 0, 0, 0, 1, 0, 0, 0, 0, 1] 4 ≠
      .ok "1 0 1 0\n0 1 0 0\n0 0 1 0\n0 0 0 1\n" := by
  decide

/-! ## The first line and the size -/

theorem fgetsLoop_line (k : Nat) (acc line rest : List Char)
    (hline : ∀ c, c ∈ line → c ≠ '\n') :
    fgetsLoop k acc (line ++ '\n' :: rest) =
      if line.length < k then (acc.reverse ++ line ++ ['\n'], rest)
      else (acc.reverse ++ line.take k, line.drop k ++ '\n' :: rest) := by
  induction k generalizing acc line with
  | zero => simp [fgetsLoop]
  | succ k ih =>
    cases line with
    | nil => simp [fgetsLoop]
    | cons c l =>
      have hc : c ≠ '\n' := hline c (List.mem_cons_self _ _)
      have hl : ∀ d, d ∈ l → d ≠ '\n' := fun d hd => hline d (List.mem_cons_of_mem _ hd)
      show fgetsLoop (k + 1) acc (c :: (l ++ '\n' :: rest)) = _
      rw [fgetsLoop, if_neg hc, ih (c :: acc) l hl]
      by_cases h : l.length < k
      · rw [if_pos h, if_pos (by simpa using h)]
        simp
      · rw [if_neg h, if_neg (by simpa using h)]
        simp

theorem fgets_line (buf line rest : List Char) (hline : ∀ c, c ∈ line → c ≠ '\n') :
    fgets buf MAXSIZE (line ++ '\n' :: rest) =
      if line.length < 49 then (line ++ ['\n'], rest)
      else (line.take 49, line.drop 49 ++ '\n' :: rest) := by
  have h := fgetsLoop_line 49 [] line rest hline
  simp only [List.reverse_nil, List.nil_append] at h
  cases line with
  | nil => exact h
  | cons c l => exact h

theorem strlen_of_no_nul (s : List Char) (h : ∀ c, c ∈ s → c ≠ Char.ofNat 0) :
    strlen s = s.length := by
  unfold strlen
  rw [List.takeWhile_eq_self_iff.mpr]
  intro c hc
  simpa using h c hc

/-- The size that the code takes from a newline-terminated first line of `L` characters
(none of them NUL): `L` when `L <= 48`, and `48` when `L >= 49`. -/
theorem firstSize_line (buf line rest : List Char) (hnl : ∀ c, c ∈ line → c ≠ '\n')
    (hnul : ∀ c, c ∈ line → c ≠ Char.ofNat 0) :
    firstSize (line ++ '\n' :: rest) buf = if line.length ≤ 48 then (line.length : Int) else 48 := by
  unfold firstSize
  rw [fgets_line buf line rest hnl]
  by_cases h : line.length < 49
  · rw [if_pos h, if_pos (by omega)]
    have : strlen (line ++ ['\n']) = line.length + 1 := by
      rw [strlen_of_no_nul]
      · simp
      · intro c hc
        rcases List.mem_append.mp hc with hc | hc
        · exact hnul c hc
        · rw [List.mem_singleton.mp hc]; decide
    show ((strlen (line ++ ['\n']) : Nat) : Int) - 1 = _
    rw [this]
    push_cast
    ring
  · rw [if_neg h, if_neg (by omega)]
    have : strlen (line.take 49) = 49 := by
      rw [strlen_of_no_nul]
      · rw [List.length_take]; omega
      · intro c hc
        exact hnul c (List.mem_of_mem_take hc)
    show ((strlen (line.take 49) : Nat) : Int) - 1 = _
    rw [this]
    rfl

/-- C14 (the code differs): a newline-terminated first line of 49 characters gives `n = 48`,
not 49, and so does a longer one (here 60 characters); a first line of 48 characters gives
`n = 48` as well. With the line of 49 characters the newline stays in the input and is read
as the second row. -/
theorem first_line_of_49_gives_48 :
    firstSize (List.replicate 49 '1' ++ ['\n']) [] = 48 ∧
    firstSize (List.replicate 60 '1' ++ ['\n']) [] = 48 ∧
    firstSize (List.replicate 48 '1' ++ ['\n']) [] = 48 ∧
    fgets [] MAXSIZE (List.replicate 49 '1' ++ ['\n']) = (List.replicate 49 '1', ['\n']) := by
  decide

/-! ## The stores of the row loop -/

/-- The parse loop is the sequence of its stores: it performs, in order, the store
`m[row][i]` for each index of `parseCols`. -/
theorem parseFrom_stores (n row : Nat) (s : List Char) (fuel i : Nat) (m : Store) :
    parseFrom n row s fuel i m =
      (parseCols s fuel i).foldlM
        (fun m c => store m (cell n row c) (if charAt s c = '1' then 1 else 0)) m := by
  induction fuel generalizing i m with
  | zero => rfl
  | succ fuel ih =>
    by_cases h : charAt s i = '\n' ∨ charAt s i = Char.ofNat 0
    · rw [parseFrom, parseCols, if_pos h, if_pos h]
      rfl
    · rw [parseFrom, parseCols, if_neg h, if_neg h, List.foldlM_cons]
      congr 1
      funext m'
      exact ih (i + 1) m'

/-- C18 (the code differs): an out-of-range store does occur while the matrix is built. On
the input lines `00`, `001` (`n = 2`) the parse loop of row 1 performs the stores
`m[1][0]`, `m[1][1]`, `m[1][2]`: the index `i = 2` is not below `n`, the cell lies behind the
block of `n * n` cells, and the run has no defined result. On the lines `000`, `0001`, and
an empty line (`n = 3`) row 1 performs the store `m[1][3]`, which is the cell `m[2][0]`. -/
theorem parse_store_out_of_range :
    parseCols "001\n".toList MAXSIZE 0 = [0, 1, 2] ∧
    ¬ (∀ i ∈ parseCols "001\n".toList MAXSIZE 0, i < 2) ∧
    ¬ (cell 2 1 2 < 2 * 2) ∧
    main "00\n001\n".toList [] (fun _ => 0) (fun _ => 0) = .error .outOfBounds ∧
    parseCols "0001\n".toList MAXSIZE 0 = [0, 1, 2, 3] ∧
    cell 3 1 3 = cell 3 2 0 := by
  decide

/-! ## Runs that do not fail -/

theorem lineLen_line (l r : List Char) : lineLen (l ++ '\n' :: r) ≤ l.length := by
  induction l with
  | nil => simp [lineLen]
  | cons c l ih =>
    by_cases hc : c ≠ '\n' ∧ c ≠ Char.ofNat 0
    · have hl : lineLen (c :: (l ++ '\n' :: r)) = lineLen (l ++ '\n' :: r) + 1 := by
        simp [lineLen, List.takeWhile_cons, hc]
      show lineLen (c :: (l ++ '\n' :: r)) ≤ (c :: l).length
      rw [hl, List.length_cons]
      omega
    · have hl : lineLen (c :: (l ++ '\n' :: r)) = 0 := by
        simp only [lineLen, List.takeWhile_cons]
        rw [if_neg (by simpa using hc)]
        rfl
      show lineLen (c :: (l ++ '\n' :: r)) ≤ (c :: l).length
      rw [hl]
      exact Nat.zero_le _

end Warshall
